import Mathlib

/-!
Verification of the grid-maintenance and cross-tracker consistency engine of the
ChurnBuster dependency-tracking system.

The Python modules `io/tracker_io.py` and `utils/tracker_utils.py` are embedded
shallowly below.  Support modules that the repository imports but that are not
part of the source tree (`core/dependency_grid.py` — the RLE codec,
`utils/config_manager.py` — the character priority table,
`core/key_manager.py` — hierarchical key sorting, `utils/path_utils.py` —
path predicates) are modelled from the specification; each such definition
carries a doc comment starting with "Modelled from the spec".

Conventions: grids under update are matrices `List (List Char)` indexed by the
position of a key in the sorted key list (the Python code keys its
`temp_decomp_grid` dictionary by key string; since key strings in a tracker are
distinct the two representations are isomorphic).  Tracker files on disk are
association lists: key definitions `List (Key × Path)` and compressed grid rows
`List (Key × List Char)`; Python `dict` iteration order is list order.
-/

namespace DepSys

abbrev Key := String
abbrev Path := String

/-! ### Association-list helpers (model of Python dict lookup / assignment) -/

def alookup {α β : Type} [DecidableEq α] : List (α × β) → α → Option β
  | [], _ => none
  | (k, v) :: rest, a => if a = k then some v else alookup rest a

def aset {α β : Type} [DecidableEq α] : List (α × β) → α → β → List (α × β)
  | [], a, b => [(a, b)]
  | (k, v) :: rest, a, b => if a = k then (a, b) :: rest else (k, v) :: aset rest a b

theorem alookup_aset_self {α β : Type} [DecidableEq α]
    (m : List (α × β)) (a : α) (b : β) : alookup (aset m a b) a = some b := by
  induction m with
  | nil => simp [aset, alookup]
  | cons kv rest ih =>
      obtain ⟨k, v⟩ := kv
      by_cases h : a = k <;> simp [aset, alookup, h, ih]

theorem alookup_aset_other {α β : Type} [DecidableEq α]
    (m : List (α × β)) (a x : α) (b : β) (hx : x ≠ a) :
    alookup (aset m a b) x = alookup m x := by
  induction m with
  | nil => simp [aset, alookup, hx]
  | cons kv rest ih =>
      obtain ⟨k, v⟩ := kv
      by_cases h : a = k
      · subst h
        simp [aset, alookup, hx]
      · by_cases h2 : x = k <;> simp [aset, alookup, h, h2, ih]

/-! ### Decimal digit rendering and parsing (used by the RLE codec) -/

def digitChar (n : Nat) : Char :=
  match n with
  | 0 => '0' | 1 => '1' | 2 => '2' | 3 => '3' | 4 => '4'
  | 5 => '5' | 6 => '6' | 7 => '7' | 8 => '8' | _ => '9'

def digitVal (c : Char) : Nat :=
  match c with
  | '0' => 0 | '1' => 1 | '2' => 2 | '3' => 3 | '4' => 4
  | '5' => 5 | '6' => 6 | '7' => 7 | '8' => 8 | _ => 9

def digitsVal (l : List Char) : Nat :=
  l.foldl (fun a c => 10 * a + digitVal c) 0

def natDigitsFuel : Nat → Nat → List Char
  | 0, _ => []
  | f + 1, n =>
      if n < 10 then [digitChar n]
      else natDigitsFuel f (n / 10) ++ [digitChar (n % 10)]

def natDigits (n : Nat) : List Char := natDigitsFuel n n

theorem digitVal_digitChar (n : Nat) (h : n < 10) : digitVal (digitChar n) = n := by
  interval_cases n <;> rfl

theorem isDigit_digitChar (n : Nat) : (digitChar n).isDigit = true := by
  rcases n with _ | _ | _ | _ | _ | _ | _ | _ | _ | n <;> rfl

theorem digitsVal_append_single (l : List Char) (c : Char) :
    digitsVal (l ++ [c]) = 10 * digitsVal l + digitVal c := by
  simp [digitsVal, List.foldl_append]

theorem digitsVal_natDigitsFuel (f n : Nat) (hn : n ≤ f) :
    digitsVal (natDigitsFuel f n) = n := by
  induction f generalizing n with
  | zero =>
      interval_cases n
      rfl
  | succ f ih =>
      by_cases h : n < 10
      · simp [natDigitsFuel, h, digitsVal, digitVal_digitChar n h]
      · have h10 : 10 ≤ n := Nat.le_of_not_lt h
        have hdiv : n / 10 ≤ f := by
          have : n / 10 < n := Nat.div_lt_self (by omega) (by omega)
          omega
        simp only [natDigitsFuel, h, if_false]
        rw [digitsVal_append_single, ih _ hdiv, digitVal_digitChar _ (Nat.mod_lt _ (by omega))]
        omega

theorem digitsVal_natDigits (n : Nat) : digitsVal (natDigits n) = n :=
  digitsVal_natDigitsFuel n n le_rfl

theorem natDigitsFuel_all_digits (f n : Nat) :
    ∀ c ∈ natDigitsFuel f n, c.isDigit = true := by
  induction f generalizing n with
  | zero => intro c hc; simp [natDigitsFuel] at hc
  | succ f ih =>
      intro c hc
      by_cases h : n < 10
      · simp [natDigitsFuel, h] at hc
        simp [hc, isDigit_digitChar]
      · simp only [natDigitsFuel, h, if_false, List.mem_append, List.mem_singleton] at hc
        rcases hc with hc | hc
        · exact ih _ c hc
        · simp [hc, isDigit_digitChar]

theorem natDigits_all_digits (n : Nat) : ∀ c ∈ natDigits n, c.isDigit = true :=
  natDigitsFuel_all_digits n n

theorem natDigits_ne_nil (n : Nat) (hn : 0 < n) : natDigits n ≠ [] := by
  unfold natDigits
  rcases n with _ | n
  · omega
  · by_cases h : n + 1 < 10 <;> simp [natDigitsFuel, h]

/-! ### RLE codec.

Modelled from the spec: `compress`/`decompress` live in
`core/dependency_grid.py`, which is not in the source tree.  Spec §4.2/§6:
"runs of identical characters with run length ≥ 2 are written as
`<char><decimal count>`; runs of length 1 as the single character; digits never
appear in the alphabet, so decoding is unambiguous."  The functions are written
with an explicit fuel argument (the input length suffices) so that they reduce
by kernel evaluation. -/

def decompressFuel : Nat → List Char → List Char
  | 0, _ => []
  | _, [] => []
  | f + 1, c :: rest =>
      let ds := rest.takeWhile Char.isDigit
      let rest' := rest.dropWhile Char.isDigit
      let count := if ds = [] then 1 else digitsVal ds
      List.replicate count c ++ decompressFuel f rest'

/-- Modelled from the spec: RLE decoding (`core/dependency_grid.py` is missing
from src/). -/
def decompress (l : List Char) : List Char := decompressFuel l.length l

def compressFuel : Nat → List Char → List Char
  | 0, _ => []
  | _, [] => []
  | f + 1, c :: rest =>
      let run := rest.takeWhile (fun d => d = c)
      let n := run.length + 1
      (if 2 ≤ n then c :: natDigits n else [c]) ++
        compressFuel f (rest.dropWhile (fun d => d = c))

/-- Modelled from the spec: RLE encoding (`core/dependency_grid.py` is missing
from src/). -/
def compress (l : List Char) : List Char := compressFuel l.length l

theorem decompressFuel_congr (f1 : Nat) :
    ∀ (f2 : Nat) (l : List Char), l.length ≤ f1 → l.length ≤ f2 →
      decompressFuel f1 l = decompressFuel f2 l := by
  induction f1 with
  | zero =>
      intro f2 l h1 _
      have : l = [] := List.length_eq_zero.mp (by omega)
      subst this
      cases f2 <;> rfl
  | succ f ih =>
      intro f2 l h1 h2
      match l with
      | [] => cases f2 <;> rfl
      | c :: rest =>
          match f2 with
          | 0 => simp at h2
          | g + 1 =>
              simp only [decompressFuel]
              have hdw : (rest.dropWhile Char.isDigit).length ≤ rest.length :=
                (List.dropWhile_sublist Char.isDigit).length_le
              simp only [List.length_cons] at h1 h2
              rw [ih g _ (by omega) (by omega)]

theorem compressFuel_congr (f1 : Nat) :
    ∀ (f2 : Nat) (l : List Char), l.length ≤ f1 → l.length ≤ f2 →
      compressFuel f1 l = compressFuel f2 l := by
  induction f1 with
  | zero =>
      intro f2 l h1 _
      have : l = [] := List.length_eq_zero.mp (by omega)
      subst this
      cases f2 <;> rfl
  | succ f ih =>
      intro f2 l h1 h2
      match l with
      | [] => cases f2 <;> rfl
      | c :: rest =>
          match f2 with
          | 0 => simp at h2
          | g + 1 =>
              simp only [compressFuel]
              have hdw : (rest.dropWhile (fun d => d = c)).length ≤ rest.length :=
                (List.dropWhile_sublist _).length_le
              simp only [List.length_cons] at h1 h2
              rw [ih g _ (by omega) (by omega)]

theorem decompress_nil : decompress [] = [] := rfl

theorem decompress_cons (c : Char) (rest : List Char) :
    decompress (c :: rest) =
      List.replicate
        (if rest.takeWhile Char.isDigit = [] then 1
         else digitsVal (rest.takeWhile Char.isDigit)) c ++
        decompress (rest.dropWhile Char.isDigit) := by
  show decompressFuel (rest.length + 1) (c :: rest) = _
  simp only [decompressFuel]
  rw [decompressFuel_congr rest.length _ _
    (List.dropWhile_sublist Char.isDigit).length_le le_rfl]
  rfl

theorem compress_nil : compress [] = [] := rfl

theorem compress_cons (c : Char) (rest : List Char) :
    compress (c :: rest) =
      (if 2 ≤ (rest.takeWhile (fun d => d = c)).length + 1
       then c :: natDigits ((rest.takeWhile (fun d => d = c)).length + 1)
       else [c]) ++ compress (rest.dropWhile (fun d => d = c)) := by
  show compressFuel (rest.length + 1) (c :: rest) = _
  simp only [compressFuel]
  rw [compressFuel_congr rest.length _ _ (List.dropWhile_sublist _).length_le le_rfl]
  rfl

theorem takeWhile_eq_replicate_self (c : Char) (rest : List Char) :
    rest.takeWhile (fun d => d = c) =
      List.replicate (rest.takeWhile (fun d => d = c)).length c := by
  apply List.eq_replicate_length.mpr
  intro b hb
  have := List.mem_takeWhile_imp hb
  simpa using this

theorem compress_digit_free_head (l : List Char) (h : ∀ c ∈ l, c.isDigit = false) :
    (compress l).takeWhile Char.isDigit = [] ∧
      (compress l).dropWhile Char.isDigit = compress l := by
  match l with
  | [] => exact ⟨rfl, rfl⟩
  | c :: rest =>
      have hc : c.isDigit = false := h c (by simp)
      rw [compress_cons]
      by_cases h2 : 2 ≤ (rest.takeWhile (fun d => d = c)).length + 1 <;>
        simp [h2, hc]

/-- Round-trip: decompressing a compressed digit-free string gives it back.
Digit-freeness is the spec's alphabet condition (§4.2: "digits never appear in
the alphabet"). -/
theorem decompress_compress (l : List Char) (hl : ∀ c ∈ l, c.isDigit = false) :
    decompress (compress l) = l := by
  generalize hn : l.length = n
  induction n using Nat.strong_induction_on generalizing l with
  | _ n ih =>
      match l with
      | [] => rfl
      | c :: rest =>
          set run := rest.takeWhile (fun d => d = c) with hrun
          set tail := rest.dropWhile (fun d => d = c) with htail
          have hsplit : run ++ tail = rest := by
            rw [hrun, htail]; exact List.takeWhile_append_dropWhile _ _
          have htail_sub : ∀ x ∈ tail, x.isDigit = false := by
            intro x hx
            exact hl x (by
              simp only [List.mem_cons]
              right
              rw [← hsplit]
              exact List.mem_append_right _ hx)
          have htail_lt : tail.length < n := by
            have : tail.length ≤ rest.length := by
              rw [htail]; exact (List.dropWhile_sublist _).length_le
            simp only [List.length_cons] at hn; omega
          have ihtail : decompress (compress tail) = tail :=
            ih tail.length htail_lt tail htail_sub rfl
          obtain ⟨htk, hdp⟩ := compress_digit_free_head tail htail_sub
          rw [compress_cons, ← hrun, ← htail]
          by_cases h2 : 2 ≤ run.length + 1
          · -- run length ≥ 2: the count is rendered in decimal
            rw [if_pos h2]
            have hdig : ∀ x ∈ natDigits (run.length + 1), Char.isDigit x = true :=
              natDigits_all_digits (run.length + 1)
            have hne := natDigits_ne_nil (run.length + 1) (Nat.succ_pos _)
            rw [List.cons_append, decompress_cons]
            rw [List.takeWhile_append_of_pos hdig, List.dropWhile_append_of_pos hdig,
              htk, hdp, List.append_nil]
            rw [if_neg hne, digitsVal_natDigits, ihtail]
            have hrepl : List.replicate run.length c = run :=
              (takeWhile_eq_replicate_self c rest).symm
            rw [List.replicate_succ, List.cons_append, hrepl, hsplit]
          · -- run length = 0: single character emitted
            rw [if_neg h2]
            have hruneq : run = [] := List.length_eq_zero.mp (by omega)
            have htaileq : tail = rest := by
              rw [← hsplit, hruneq, List.nil_append]
            rw [List.singleton_append, decompress_cons, htk, hdp, if_pos rfl,
              ihtail, htaileq, List.replicate_one, List.singleton_append]

/-! ### Relation characters and priorities -/

/-- Modelled from the spec: the character priority table lives in
`utils/config_manager.py`, which is not in the source tree.  Spec §3 fixes the
order up to concrete numbers: `n` and the positive characters
(`<`, `>`, `x`, `d`, `s`, `S`) outrank `p`; `S` outranks `s`; `x` outranks `<`
and `>`; `n` outranks `p`, `s`, `S` but does not outrank the verified
directional characters.  Characters outside this table (such as `o` and `P`)
raise `KeyError` in the source; call sites model that with `knownChar` guards
mirroring the `try/except` blocks. -/
def getCharPriority (c : Char) : Nat :=
  if c = 'p' then 1
  else if c = 's' then 2
  else if c = 'S' then 3
  else if c = 'd' then 4
  else if c = 'n' then 5
  else if c = '<' then 5
  else if c = '>' then 5
  else if c = 'x' then 6
  else 0

/-- Membership in the priority table: exactly the characters for which the
source's `get_char_priority` does not raise `KeyError`. -/
def knownChar (c : Char) : Bool :=
  c = 'p' || c = 's' || c = 'S' || c = 'd' || c = 'n' || c = '<' || c = '>' || c = 'x'

theorem knownChar_priority_pos (c : Char) (h : knownChar c = true) :
    1 ≤ getCharPriority c := by
  simp only [knownChar, Bool.or_eq_true, decide_eq_true_eq] at h
  rcases h with ((((((h | h) | h) | h) | h) | h) | h) | h <;>
    simp [getCharPriority, h]

/-! ### Decompressed grids as index-addressed matrices.

The Python update code keeps `temp_decomp_grid` as a dict from key string to a
row list; keys in a tracker are distinct and rows/columns are addressed through
`final_key_to_idx`, so the matrix below is indexed directly by key position. -/

abbrev Mat := List (List Char)

def getCell (g : Mat) (i j : Nat) : Char := (g.getD i []).getD j '?'

def setCell (g : Mat) (i j : Nat) (c : Char) : Mat :=
  g.set i ((g.getD i []).set j c)

/-- The freshly initialized N×N matrix: diagonal `o`, elsewhere `p`
(the in-memory counterpart of `create_initial_grid`). -/
def create_initial_matrix (n : Nat) : Mat :=
  (List.range n).map (fun i => (List.range n).map (fun j => if j = i then 'o' else 'p'))

theorem getD_set_self {α : Type} (l : List α) (i : Nat) (a d : α) (h : i < l.length) :
    (l.set i a).getD i d = a := by
  induction l generalizing i with
  | nil => simp at h
  | cons x xs ih =>
      match i with
      | 0 => rfl
      | k + 1 =>
          simp only [List.set_cons_succ, List.getD_cons_succ]
          exact ih k (by simp at h; omega)

theorem getD_set_other {α : Type} (l : List α) (i k : Nat) (a d : α) (h : i ≠ k) :
    (l.set i a).getD k d = l.getD k d := by
  induction l generalizing i k with
  | nil => simp
  | cons x xs ih =>
      match i, k with
      | 0, 0 => omega
      | 0, m + 1 => rfl
      | j + 1, 0 => rfl
      | j + 1, m + 1 =>
          simp only [List.set_cons_succ, List.getD_cons_succ]
          exact ih j m (by omega)

def WFMat (g : Mat) (n : Nat) : Prop :=
  g.length = n ∧ ∀ i, i < n → (g.getD i []).length = n

theorem wf_create_initial_matrix (n : Nat) : WFMat (create_initial_matrix n) n := by
  constructor
  · simp [create_initial_matrix]
  · intro i hi
    have : (create_initial_matrix n).getD i [] =
        (List.range n).map (fun j => if j = i then 'o' else 'p') := by
      unfold create_initial_matrix
      rw [List.getD_eq_getElem?_getD, List.getElem?_map, List.getElem?_range hi]
      rfl
    rw [this]; simp

theorem wf_setCell (g : Mat) (n i j : Nat) (c : Char) (hwf : WFMat g n) :
    WFMat (setCell g i j c) n := by
  obtain ⟨hlen, hrows⟩ := hwf
  constructor
  · simp [setCell, hlen]
  · intro k hk
    by_cases hik : i = k
    · subst hik
      by_cases hi : i < g.length
      · rw [setCell, getD_set_self _ _ _ _ hi, List.length_set]
        exact hrows i hk
      · omega
    · rw [setCell, getD_set_other _ _ _ _ _ hik]
      exact hrows k hk

theorem getCell_setCell_self (g : Mat) (n i j : Nat) (c : Char)
    (hwf : WFMat g n) (hi : i < n) (hj : j < n) :
    getCell (setCell g i j c) i j = c := by
  obtain ⟨hlen, hrows⟩ := hwf
  rw [getCell, setCell, getD_set_self _ _ _ _ (by omega),
    getD_set_self _ _ _ _ (by rw [hrows i hi]; omega)]

theorem getCell_setCell_other (g : Mat) (i j a b : Nat) (c : Char)
    (h : ¬(a = i ∧ b = j)) : getCell (setCell g i j c) a b = getCell g a b := by
  by_cases hai : a = i
  · subst hai
    have hbj : b ≠ j := fun hb => h ⟨rfl, hb⟩
    by_cases hlen : a < g.length
    · rw [getCell, setCell, getD_set_self _ _ _ _ hlen, getD_set_other _ _ _ _ _ (Ne.symm hbj)]
      rfl
    · rw [getCell, setCell, List.set_eq_of_length_le (by omega)]
      rfl
  · rw [getCell, setCell, getD_set_other _ _ _ _ _ (fun hh => hai hh.symm)]
    rfl

theorem getCell_create_initial_matrix (n i j : Nat) (hi : i < n) (hj : j < n) :
    getCell (create_initial_matrix n) i j = if j = i then 'o' else 'p' := by
  rw [getCell]
  have hrow : (create_initial_matrix n).getD i [] =
      (List.range n).map (fun j => if j = i then 'o' else 'p') := by
    unfold create_initial_matrix
    rw [List.getD_eq_getElem?_getD, List.getElem?_map, List.getElem?_range hi]
    rfl
  rw [hrow, List.getD_eq_getElem?_getD, List.getElem?_map, List.getElem?_range hj]
  rfl

/-! ### Hierarchical key sorting.

Modelled from the spec: `sort_key_strings_hierarchically` lives in
`core/key_manager.py`, which is not in the source tree.  Spec §4.1: split each
key into maximal digit/letter runs; compare run lists lexicographically,
numerically for digit runs and lexicographically for letter runs; tie-break by
length. -/

def splitRunsFuel : Nat → List Char → List (List Char)
  | 0, _ => []
  | _, [] => []
  | f + 1, c :: rest =>
      (c :: rest.takeWhile (fun d => d.isDigit == c.isDigit)) ::
        splitRunsFuel f (rest.dropWhile (fun d => d.isDigit == c.isDigit))

def splitRuns (s : List Char) : List (List Char) := splitRunsFuel s.length s

def cmpCharList : List Char → List Char → Ordering
  | [], [] => .eq
  | [], _ :: _ => .lt
  | _ :: _, [] => .gt
  | a :: as, b :: bs => (compare a b).then (cmpCharList as bs)

def compareRun (a b : List Char) : Ordering :=
  if a.all Char.isDigit && b.all Char.isDigit then
    (compare (digitsVal a) (digitsVal b)).then (compare a.length b.length)
  else cmpCharList a b

def compareRunLists : List (List Char) → List (List Char) → Ordering
  | [], [] => .eq
  | [], _ :: _ => .lt
  | _ :: _, [] => .gt
  | a :: as, b :: bs => (compareRun a b).then (compareRunLists as bs)

def keyLe (a b : String) : Prop :=
  compareRunLists (splitRuns a.data) (splitRuns b.data) ≠ Ordering.gt

instance : DecidableRel keyLe := fun a b => by
  unfold keyLe; infer_instance

/-- Modelled from the spec: hierarchical sort of key strings
(`core/key_manager.py` is missing from src/). -/
def sort_key_strings_hierarchically (keys : List String) : List String :=
  List.insertionSort keyLe keys

theorem mem_sort_key_strings (keys : List String) (k : String) :
    k ∈ sort_key_strings_hierarchically keys ↔ k ∈ keys :=
  (List.perm_insertionSort keyLe keys).mem_iff

theorem length_sort_key_strings (keys : List String) :
    (sort_key_strings_hierarchically keys).length = keys.length :=
  (List.perm_insertionSort keyLe keys).length_eq

/-- Embedded from `tracker_io._is_file_key`: a key string denotes a file iff it
ends with one or more digits (`re.search` with pattern digits-at-end). -/
def is_file_key (key_string : String) : Bool :=
  match key_string.data.getLast? with
  | some c => c.isDigit
  | none => false

theorem alookup_mem {α β : Type} [DecidableEq α] (l : List (α × β)) (a : α) (b : β)
    (h : alookup l a = some b) : (a, b) ∈ l := by
  induction l with
  | nil => simp [alookup] at h
  | cons kv rest ih =>
      obtain ⟨k, v⟩ := kv
      by_cases hk : a = k
      · subst hk
        simp [alookup] at h
        simp [h]
      · simp [alookup, hk] at h
        simp [ih h]

/-! ### `write_tracker_file` (claim C2) -/

/-- Modelled from the spec: `validate_grid` (in the missing
`core/dependency_grid.py`) — "for each key, row exists and decompresses to
length N with `o` at the diagonal" (§4.2). -/
def validate_grid (grid : List (Key × List Char)) (sorted_keys_list : List Key) : Bool :=
  sorted_keys_list.enum.all (fun ik =>
    match alookup grid ik.2 with
    | none => false
    | some row =>
        let d := decompress row
        decide (d.length = sorted_keys_list.length ∧ d.getD ik.1 '?' = 'o'))

/-- A length-N all-placeholder row with the diagonal restored, as rebuilt by
`write_tracker_file` for missing or malformed rows. -/
def rebuild_row (n i : Nat) : List Char :=
  (List.range n).map (fun j => if j = i then 'o' else 'p')

/-- Embedded from `tracker_io.write_tracker_file` (pure content part): sort the
definition keys hierarchically, validate the grid, abort (`none`) on failure,
otherwise rebuild/fix each row against the sorted key list and emit the
definitions section and the compressed grid rows in sorted order.  The result
models the `(key definitions, grid rows)` content written to disk. -/
def write_tracker_file (key_defs : List (Key × Path)) (grid : List (Key × List Char)) :
    Option (List (Key × Path) × List (Key × List Char)) :=
  let sorted := sort_key_strings_hierarchically (key_defs.map Prod.fst)
  if validate_grid grid sorted then
    some (sorted.map (fun k => (k, (alookup key_defs k).getD "")),
          sorted.enum.map (fun ik =>
            let row_list :=
              match alookup grid ik.2 with
              | some comp =>
                  let d := decompress comp
                  if d.length = sorted.length then d else rebuild_row sorted.length ik.1
              | none => rebuild_row sorted.length ik.1
            (ik.2, compress row_list)))
  else none

theorem rebuild_row_length (n i : Nat) : (rebuild_row n i).length = n := by
  simp [rebuild_row]

theorem rebuild_row_getD (n i : Nat) (hi : i < n) : (rebuild_row n i).getD i '?' = 'o' := by
  rw [rebuild_row, List.getD_eq_getElem?_getD, List.getElem?_map, List.getElem?_range hi]
  simp

theorem rebuild_row_digit_free (n i : Nat) :
    ∀ ch ∈ rebuild_row n i, ch.isDigit = false := by
  intro ch hch
  simp only [rebuild_row, List.mem_map] at hch
  obtain ⟨j, _, hj⟩ := hch
  by_cases h : j = i <;> simp [h] at hj <;> simp [← hj]
/-- C2: every tracker grid written by `write_tracker_file` satisfies T1 (the
set of grid row keys equals the set of definition keys) and T2 (each written
row decompresses to a string of length N with the diagonal character `o` at
the row's own index); if grid validation fails, `write_tracker_file` returns
`none` and writes nothing.  The hypothesis restricts grid rows to the
digit-free relation alphabet (spec §4.2). -/
theorem write_tracker_file_T1_T2 (key_defs : List (Key × Path))
    (grid : List (Key × List Char)) (defs_out : List (Key × Path))
    (grid_out : List (Key × List Char))
    (halpha : ∀ kv ∈ grid, ∀ ch ∈ decompress kv.2, ch.isDigit = false) :
    (write_tracker_file key_defs grid = some (defs_out, grid_out) →
       (grid_out.map Prod.fst = sort_key_strings_hierarchically (key_defs.map Prod.fst)
         ∧ ∀ k, k ∈ grid_out.map Prod.fst ↔ k ∈ key_defs.map Prod.fst)
       ∧ ∀ i, i < grid_out.length →
           ∃ kv, grid_out.get? i = some kv
             ∧ (decompress kv.2).length = grid_out.length
             ∧ (decompress kv.2).getD i '?' = 'o')
    ∧ (validate_grid grid (sort_key_strings_hierarchically (key_defs.map Prod.fst)) = false →
        write_tracker_file key_defs grid = none) := by
  constructor
  · intro hsome
    unfold write_tracker_file at hsome
    set sorted := sort_key_strings_hierarchically (key_defs.map Prod.fst) with hsorted
    by_cases hval : validate_grid grid sorted
    swap
    · simp [hval] at hsome
    rw [if_pos hval] at hsome
    have hpair := (Option.some.injEq _ _).mp hsome
    have hgrid_out : sorted.enum.map (fun ik =>
        (ik.2, compress (match alookup grid ik.2 with
          | some comp =>
              let d := decompress comp
              if d.length = sorted.length then d else rebuild_row sorted.length ik.1
          | none => rebuild_row sorted.length ik.1))) = grid_out :=
      ((Prod.mk.injEq _ _ _ _).mp hpair).2
    have hfst : grid_out.map Prod.fst = sorted := by
      rw [← hgrid_out, List.map_map]
      have hcomp : (Prod.fst ∘ fun ik : Nat × Key =>
          ((ik.2 : Key), compress (match alookup grid ik.2 with
            | some comp =>
                let d := decompress comp
                if d.length = sorted.length then d else rebuild_row sorted.length ik.1
            | none => rebuild_row sorted.length ik.1))) = Prod.snd := by
        funext ik; rfl
      rw [hcomp, List.enum_map_snd]
    have hlen_out : grid_out.length = sorted.length := by
      rw [← hgrid_out]; simp
    refine ⟨⟨hfst, ?_⟩, ?_⟩
    · intro k
      rw [hfst, hsorted, mem_sort_key_strings]
    · intro i hi
      have hi' : i < sorted.length := by omega
      have hget : grid_out.get? i =
          some (sorted.get ⟨i, hi'⟩, compress (match alookup grid (sorted.get ⟨i, hi'⟩) with
            | some comp =>
                let d := decompress comp
                if d.length = sorted.length then d else rebuild_row sorted.length i
            | none => rebuild_row sorted.length i)) := by
        rw [← hgrid_out, List.get?_eq_getElem?, List.getElem?_map,
          List.getElem?_enum]
        simp only [List.getElem?_eq_getElem hi']
        rfl
      refine ⟨_, hget, ?_⟩
      match hlook : alookup grid (sorted.get ⟨i, hi'⟩) with
      | none =>
          simp only [hlook]
          rw [decompress_compress _ (rebuild_row_digit_free _ _)]
          exact ⟨by rw [rebuild_row_length]; omega,
            rebuild_row_getD _ _ (by omega)⟩
      | some comp =>
          have hmem : (sorted.get ⟨i, hi'⟩, comp) ∈ grid := alookup_mem _ _ _ hlook
          have hdf : ∀ ch ∈ decompress comp, ch.isDigit = false := halpha _ hmem
          simp only [hlook]
          by_cases hlen : (decompress comp).length = sorted.length
          · simp only [hlen, if_true]
            rw [decompress_compress _ hdf]
            constructor
            · omega
            · -- the diagonal character comes from grid validation
              have hall := List.all_eq_true.mp hval
              have henum : (i, sorted.get ⟨i, hi'⟩) ∈ sorted.enum := by
                have hh : sorted.enum.get ⟨i, by simp [hi']⟩ = (i, sorted.get ⟨i, hi'⟩) := by
                  simp [List.getElem_enum]
                rw [← hh]
                exact List.get_mem _ _ _
              have hx := hall _ henum
              simp only [hlook] at hx
              exact (of_decide_eq_true hx).2
          · simp only [hlen, if_false]
            rw [decompress_compress _ (rebuild_row_digit_free _ _)]
            exact ⟨by rw [rebuild_row_length]; omega,
              rebuild_row_getD _ _ (by omega)⟩
  · intro hval
    unfold write_tracker_file
    simp [hval]

/-- Witness for C2 at a concrete two-key tracker: the digit-free hypothesis
holds, the writer succeeds, and the invariants follow by the theorem. -/
theorem write_tracker_file_T1_T2_witness :
    (∀ kv ∈ ([("1A", ['o', '<']), ("1B", ['>', 'o'])] : List (Key × List Char)),
        ∀ ch ∈ decompress kv.2, ch.isDigit = false)
    ∧ write_tracker_file [("1A", "docs/a.md"), ("1B", "docs/b.md")]
        [("1A", ['o', '<']), ("1B", ['>', 'o'])] =
        some ([("1A", "docs/a.md"), ("1B", "docs/b.md")],
              [("1A", ['o', '<']), ("1B", ['>', 'o'])])
    ∧ ((write_tracker_file [("1A", "docs/a.md"), ("1B", "docs/b.md")]
          [("1A", ['o', '<']), ("1B", ['>', 'o'])] =
          some ([("1A", "docs/a.md"), ("1B", "docs/b.md")],
                [("1A", ['o', '<']), ("1B", ['>', 'o'])]) →
         (([("1A", ['o', '<']), ("1B", ['>', 'o'])] : List (Key × List Char)).map Prod.fst =
             sort_key_strings_hierarchically
               (([("1A", "docs/a.md"), ("1B", "docs/b.md")] : List (Key × Path)).map Prod.fst)
           ∧ ∀ k, k ∈ (([("1A", ['o', '<']), ("1B", ['>', 'o'])] : List (Key × List Char)).map Prod.fst)
               ↔ k ∈ (([("1A", "docs/a.md"), ("1B", "docs/b.md")] : List (Key × Path)).map Prod.fst))
         ∧ ∀ i, i < ([("1A", ['o', '<']), ("1B", ['>', 'o'])] : List (Key × List Char)).length →
             ∃ kv, ([("1A", ['o', '<']), ("1B", ['>', 'o'])] : List (Key × List Char)).get? i = some kv
               ∧ (decompress kv.2).length =
                   ([("1A", ['o', '<']), ("1B", ['>', 'o'])] : List (Key × List Char)).length
               ∧ (decompress kv.2).getD i '?' = 'o')
       ∧ (validate_grid [("1A", ['o', '<']), ("1B", ['>', 'o'])]
            (sort_key_strings_hierarchically
              (([("1A", "docs/a.md"), ("1B", "docs/b.md")] : List (Key × Path)).map Prod.fst)) = false →
           write_tracker_file [("1A", "docs/a.md"), ("1B", "docs/b.md")]
             [("1A", ['o', '<']), ("1B", ['>', 'o'])] = none)) :=
  ⟨by decide, by decide,
    write_tracker_file_T1_T2 [("1A", "docs/a.md"), ("1B", "docs/b.md")]
      [("1A", ['o', '<']), ("1B", ['>', 'o'])]
      [("1A", "docs/a.md"), ("1B", "docs/b.md")]
      [("1A", ['o', '<']), ("1B", ['>', 'o'])] (by decide)⟩


/-! ### `_merge_grids` (claim C10) -/

/-- Embedded from `tracker_io._merge_grids.safe_decompress`: keep only rows
whose key is in the key list and whose decompressed length matches. -/
def safe_decompress (grid_data : List (Key × List Char)) (keys_list : List Key) :
    List (Key × List Char) :=
  grid_data.filterMap (fun kv =>
    if kv.1 ∈ keys_list then
      let d := decompress kv.2
      if d.length = keys_list.length then some (kv.1, d) else none
    else none)

/-- Embedded from `tracker_io._merge_grids`: the value a decompressed grid
contributes for a (row key, column key) pair — `None` when the row is absent,
the column key is not in the key list, or the index is out of range. -/
def grid_val (decomp : List (Key × List Char)) (keys_list : List Key)
    (row_key col_key : Key) : Option Char :=
  match alookup decomp row_key, keys_list.findIdx? (fun k => k = col_key) with
  | some row, some idx => row.get? idx
  | _, _ => none

/-- Embedded from `tracker_io._merge_grids` (lines computing `final_val`):
primary wins when present and not a placeholder, then secondary, else `p`. -/
def merged_cell_value (pv sv : Option Char) : Char :=
  match pv with
  | some v =>
      if v = 'p' then
        match sv with
        | some w => if w = 'p' then 'p' else w
        | none => 'p'
      else v
  | none =>
      match sv with
      | some w => if w = 'p' then 'p' else w
      | none => 'p'

/-- Embedded from `tracker_io._merge_grids`: initialize an N×N matrix with
placeholder cells and `o` on the diagonal, fill every non-diagonal cell from
the primary grid else the secondary grid, and compress each row. -/
def merge_grids (primary_grid secondary_grid : List (Key × List Char))
    (primary_keys_list secondary_keys_list merged_keys_list : List Key) :
    List (Key × List Char) :=
  let primary_decomp := safe_decompress primary_grid primary_keys_list
  let secondary_decomp := safe_decompress secondary_grid secondary_keys_list
  merged_keys_list.enum.map (fun irk =>
    (irk.2, compress (merged_keys_list.enum.map (fun jck =>
      if irk.1 = jck.1 then 'o'
      else merged_cell_value
        (grid_val primary_decomp primary_keys_list irk.2 jck.2)
        (grid_val secondary_decomp secondary_keys_list irk.2 jck.2)))))

/-- Reading of the claim: the value the original compressed grid holds at a
(row key, column key) pair — defined directly on the on-disk data. -/
def tracker_cell_value (grid : List (Key × List Char)) (keys_list : List Key)
    (row_key col_key : Key) : Option Char :=
  match alookup grid row_key with
  | none => none
  | some comp =>
      if row_key ∈ keys_list ∧ (decompress comp).length = keys_list.length then
        match keys_list.findIdx? (fun k => k = col_key) with
        | some idx => (decompress comp).get? idx
        | none => none
      else none

theorem alookup_none_of_not_mem_fst {α β : Type} [DecidableEq α]
    (l : List (α × β)) (a : α) (h : a ∉ l.map Prod.fst) : alookup l a = none := by
  induction l with
  | nil => rfl
  | cons kv rest ih =>
      simp only [List.map_cons, List.mem_cons] at h
      push_neg at h
      simp only [alookup, if_neg h.1]
      exact ih h.2

theorem mem_fst_safe_decompress (grid_data : List (Key × List Char))
    (keys_list : List Key) (k : Key)
    (h : k ∈ (safe_decompress grid_data keys_list).map Prod.fst) :
    k ∈ grid_data.map Prod.fst := by
  simp only [safe_decompress, List.map_filterMap, List.mem_filterMap] at h
  obtain ⟨kv, hmem, hopt⟩ := h
  by_cases h1 : kv.1 ∈ keys_list
  · simp only [h1, if_true] at hopt
    by_cases h2 : (decompress kv.2).length = keys_list.length
    · simp only [h2, if_true, Option.map_some'] at hopt
      simp only [Option.some.injEq] at hopt
      subst hopt
      exact List.mem_map.mpr ⟨kv, hmem, rfl⟩
    · simp [h2] at hopt
  · simp [h1] at hopt

theorem alookup_safe_decompress (grid_data : List (Key × List Char))
    (keys_list : List Key) (rk : Key)
    (hnd : (grid_data.map Prod.fst).Nodup) :
    alookup (safe_decompress grid_data keys_list) rk =
      match alookup grid_data rk with
      | some comp =>
          if rk ∈ keys_list ∧ (decompress comp).length = keys_list.length
          then some (decompress comp) else none
      | none => none := by
  induction grid_data with
  | nil => rfl
  | cons kv rest ih =>
      obtain ⟨k, v⟩ := kv
      simp only [List.map_cons, List.nodup_cons] at hnd
      obtain ⟨hknotin, hndrest⟩ := hnd
      by_cases hk : rk = k
      · subst hk
        simp only [alookup, if_pos rfl]
        have hrest_none : alookup (safe_decompress rest keys_list) rk = none := by
          apply alookup_none_of_not_mem_fst
          intro hmem
          exact hknotin (mem_fst_safe_decompress rest keys_list rk hmem)
        by_cases h1 : rk ∈ keys_list
        · by_cases h2 : (decompress v).length = keys_list.length
          · simp [safe_decompress, h1, h2, alookup]
          · simp only [safe_decompress, List.filterMap_cons, h1, if_true, h2, if_false]
            rw [← safe_decompress, hrest_none]
            simp [h1, h2]
        · simp only [safe_decompress, List.filterMap_cons, h1, if_false]
          rw [← safe_decompress, hrest_none]
          simp [h1]
      · simp only [alookup, if_neg hk]
        by_cases h1 : k ∈ keys_list
        · by_cases h2 : (decompress v).length = keys_list.length
          · simp only [safe_decompress, List.filterMap_cons, h1, if_true, h2]
            rw [← safe_decompress]
            simp only [alookup, if_neg hk]
            exact ih hndrest
          · simp only [safe_decompress, List.filterMap_cons, h1, if_true, h2, if_false]
            rw [← safe_decompress]
            exact ih hndrest
        · simp only [safe_decompress, List.filterMap_cons, h1, if_false]
          rw [← safe_decompress]
          exact ih hndrest

theorem grid_val_safe_eq_tracker_cell_value (grid_data : List (Key × List Char))
    (keys_list : List Key) (rk ck : Key)
    (hnd : (grid_data.map Prod.fst).Nodup) :
    grid_val (safe_decompress grid_data keys_list) keys_list rk ck =
      tracker_cell_value grid_data keys_list rk ck := by
  rw [grid_val, alookup_safe_decompress _ _ _ hnd, tracker_cell_value]
  match alookup grid_data rk with
  | none => rfl
  | some comp =>
      by_cases h1 : rk ∈ keys_list ∧ (decompress comp).length = keys_list.length
      · simp only [h1, if_true]
        match keys_list.findIdx? (fun k => k = ck) with
        | none => rfl
        | some idx => rfl
      · simp only [h1, if_false]

theorem grid_val_digit_free (grid_data : List (Key × List Char))
    (keys_list : List Key) (rk ck : Key) (v : Char)
    (hdf : ∀ kv ∈ grid_data, ∀ ch ∈ decompress kv.2, ch.isDigit = false)
    (h : grid_val (safe_decompress grid_data keys_list) keys_list rk ck = some v) :
    v.isDigit = false := by
  rw [grid_val] at h
  match hl : alookup (safe_decompress grid_data keys_list) rk,
      hf : keys_list.findIdx? (fun k => k = ck) with
  | some row, some idx =>
      rw [hl, hf] at h
      have hrowmem : (rk, row) ∈ safe_decompress grid_data keys_list := alookup_mem _ _ _ hl
      simp only [safe_decompress, List.mem_filterMap] at hrowmem
      obtain ⟨kv, hkv, hopt⟩ := hrowmem
      by_cases h1 : kv.1 ∈ keys_list
      · simp only [h1, if_true] at hopt
        by_cases h2 : (decompress kv.2).length = keys_list.length
        · simp only [h2, if_true, Option.some.injEq, Prod.mk.injEq] at hopt
          have hrow : row = decompress kv.2 := hopt.2.symm
          subst hrow
          exact hdf kv hkv v (List.get?_mem h)
        · simp [h2] at hopt
      · simp [h1] at hopt
  | some row, none => rw [hl, hf] at h; exact absurd h (by simp)
  | none, some idx => rw [hl, hf] at h; exact absurd h (by simp)
  | none, none => rw [hl, hf] at h; exact absurd h (by simp)

theorem merged_cell_value_cases (pv sv : Option Char) :
    merged_cell_value pv sv = 'p'
    ∨ (∃ v, pv = some v ∧ merged_cell_value pv sv = v)
    ∨ (∃ w, sv = some w ∧ merged_cell_value pv sv = w) := by
  match pv, sv with
  | some v, some w =>
      by_cases h1 : v = 'p'
      · by_cases h2 : w = 'p'
        · left; simp [merged_cell_value, h1, h2]
        · right; right; exact ⟨w, rfl, by simp [merged_cell_value, h1, h2]⟩
      · right; left; exact ⟨v, rfl, by simp [merged_cell_value, h1]⟩
  | some v, none =>
      by_cases h1 : v = 'p'
      · left; simp [merged_cell_value, h1]
      · right; left; exact ⟨v, rfl, by simp [merged_cell_value, h1]⟩
  | none, some w =>
      by_cases h2 : w = 'p'
      · left; simp [merged_cell_value, h2]
      · right; right; exact ⟨w, rfl, by simp [merged_cell_value, h2]⟩
  | none, none => left; rfl
/-- C10: in `_merge_grids`, every diagonal cell of the merged grid is `o`, and
every non-diagonal cell equals the primary grid's value at that key pair when
that value exists and is not `p`, otherwise the secondary grid's value when it
exists and is not `p`, otherwise `p`.  Character priorities play no role: the
right-hand side mentions none. -/
theorem merge_grids_cell_characterization
    (primary_grid secondary_grid : List (Key × List Char))
    (primary_keys_list secondary_keys_list merged_keys_list : List Key)
    (hnd1 : (primary_grid.map Prod.fst).Nodup)
    (hnd2 : (secondary_grid.map Prod.fst).Nodup)
    (hdf1 : ∀ kv ∈ primary_grid, ∀ ch ∈ decompress kv.2, ch.isDigit = false)
    (hdf2 : ∀ kv ∈ secondary_grid, ∀ ch ∈ decompress kv.2, ch.isDigit = false)
    (i j : Nat) (hi : i < merged_keys_list.length) (hj : j < merged_keys_list.length) :
    ∃ row,
      (merge_grids primary_grid secondary_grid primary_keys_list secondary_keys_list
          merged_keys_list).get? i = some (merged_keys_list.getD i "", row)
      ∧ (decompress row).getD j '?' =
          (if i = j then 'o'
           else merged_cell_value
             (tracker_cell_value primary_grid primary_keys_list
               (merged_keys_list.getD i "") (merged_keys_list.getD j ""))
             (tracker_cell_value secondary_grid secondary_keys_list
               (merged_keys_list.getD i "") (merged_keys_list.getD j ""))) := by
  have hid : merged_keys_list.getD i "" = merged_keys_list[i] :=
    List.getD_eq_getElem _ _ hi
  have hjd : merged_keys_list.getD j "" = merged_keys_list[j] :=
    List.getD_eq_getElem _ _ hj
  rw [hid, hjd]
  have hrow_df : ∀ ch ∈ merged_keys_list.enum.map (fun jck =>
      if i = jck.1 then 'o'
      else merged_cell_value
        (grid_val (safe_decompress primary_grid primary_keys_list) primary_keys_list
          merged_keys_list[i] jck.2)
        (grid_val (safe_decompress secondary_grid secondary_keys_list) secondary_keys_list
          merged_keys_list[i] jck.2)), ch.isDigit = false := by
    intro ch hch
    simp only [List.mem_map] at hch
    obtain ⟨jck, _, hval⟩ := hch
    by_cases hij : i = jck.1
    · rw [if_pos hij] at hval; simp [← hval]
    · rw [if_neg hij] at hval
      rcases merged_cell_value_cases
          (grid_val (safe_decompress primary_grid primary_keys_list) primary_keys_list
            merged_keys_list[i] jck.2)
          (grid_val (safe_decompress secondary_grid secondary_keys_list) secondary_keys_list
            merged_keys_list[i] jck.2) with hp | ⟨v, hv, he⟩ | ⟨w, hw, he⟩
      · rw [hp] at hval; simp [← hval]
      · rw [he] at hval
        rw [← hval]
        exact grid_val_digit_free _ _ _ _ _ hdf1 hv
      · rw [he] at hval
        rw [← hval]
        exact grid_val_digit_free _ _ _ _ _ hdf2 hw
  refine ⟨compress (merged_keys_list.enum.map (fun jck =>
      if i = jck.1 then 'o'
      else merged_cell_value
        (grid_val (safe_decompress primary_grid primary_keys_list) primary_keys_list
          merged_keys_list[i] jck.2)
        (grid_val (safe_decompress secondary_grid secondary_keys_list) secondary_keys_list
          merged_keys_list[i] jck.2))), ?_, ?_⟩
  · rw [merge_grids]
    rw [List.get?_eq_getElem?, List.getElem?_map, List.getElem?_enum,
      List.getElem?_eq_getElem hi]
    rfl
  · rw [decompress_compress _ hrow_df]
    rw [List.getD_eq_getElem?_getD, List.getElem?_map, List.getElem?_enum,
      List.getElem?_eq_getElem hj]
    simp only [Option.map_some', Option.getD_some]
    rw [grid_val_safe_eq_tracker_cell_value _ _ _ _ hnd1,
      grid_val_safe_eq_tracker_cell_value _ _ _ _ hnd2]

/-- Witness for C10 on a two-key merge in which the primary grid holds `s` at
(1A,1B) and the secondary holds the higher-priority `x` there: the merged cell
is the primary's `s`, showing priority plays no role. -/
theorem merge_grids_cell_characterization_witness :
    (∃ row,
      (merge_grids [("1A", ['o', 's']), ("1B", ['p', 'o'])]
          [("1A", ['o', 'x']), ("1B", ['x', 'o'])]
          ["1A", "1B"] ["1A", "1B"] ["1A", "1B"]).get? 0 =
        some ((["1A", "1B"] : List Key).getD 0 "", row)
      ∧ (decompress row).getD 1 '?' =
          (if 0 = 1 then 'o'
           else merged_cell_value
             (tracker_cell_value [("1A", ['o', 's']), ("1B", ['p', 'o'])] ["1A", "1B"]
               ((["1A", "1B"] : List Key).getD 0 "") ((["1A", "1B"] : List Key).getD 1 ""))
             (tracker_cell_value [("1A", ['o', 'x']), ("1B", ['x', 'o'])] ["1A", "1B"]
               ((["1A", "1B"] : List Key).getD 0 "") ((["1A", "1B"] : List Key).getD 1 ""))))
    ∧ merged_cell_value
        (tracker_cell_value [("1A", ['o', 's']), ("1B", ['p', 'o'])] ["1A", "1B"] "1A" "1B")
        (tracker_cell_value [("1A", ['o', 'x']), ("1B", ['x', 'o'])] ["1A", "1B"] "1A" "1B") = 's'
    ∧ getCharPriority 'x' > getCharPriority 's' :=
  ⟨merge_grids_cell_characterization
      [("1A", ['o', 's']), ("1B", ['p', 'o'])] [("1A", ['o', 'x']), ("1B", ['x', 'o'])]
      ["1A", "1B"] ["1A", "1B"] ["1A", "1B"]
      (by decide) (by decide) (by decide) (by decide) 0 1 (by decide) (by decide),
   by decide, by decide⟩

/-! ### Suggestion application in `update_tracker` (claims C4 and C5).

Embedded from `tracker_io.update_tracker`, the per-suggestion body of the
"Apply Suggestions" loop (reciprocal/mutual logic and conflict handling),
specialised to a single suggestion `(source_key, target_key, dep_char)` acting
on the decompressed grid. -/

/-- The three-branch decision whether a suggestion is applied
(`should_apply_suggestion` in the source): forced apply for non-placeholder
differing characters; placeholder cells accept any non-placeholder; otherwise a
non-forced conflict is resolved for the suggestion only when the existing
character is not `n` and the suggestion has strictly higher priority (the
`try/except KeyError` around the priority lookups is modelled by `knownChar`
guards). -/
def should_apply_suggestion (force : Bool) (existing c : Char) : Bool :=
  if force then decide (c ≠ 'p' ∧ existing ≠ c)
  else if existing = 'p' then decide (c ≠ 'p')
  else if existing ≠ 'o' ∧ existing ≠ c then
    knownChar existing && knownChar c &&
      decide (existing ≠ 'n' ∧ getCharPriority c > getCharPriority existing)
  else false

/-- The reciprocal character of a directional suggestion. -/
def reciprocal_of (c : Char) : Option Char :=
  if c = '>' then some '<' else if c = '<' then some '>' else none

/-- One suggestion applied to the grid: mutual-`x` collapse when the reverse
cell already holds the same directional character, otherwise the direct write
followed by the guarded reciprocal write; a non-applied non-forced conflict
falls through to the trailing conflict block of the source (which re-checks the
same guard). -/
def apply_suggestion (force : Bool) (keys : List Key) (g : Mat)
    (source_key target_key : Key) (dep_char : Char) : Mat :=
  match keys.findIdx? (fun k => k = source_key),
        keys.findIdx? (fun k => k = target_key) with
  | some row_idx, some col_idx =>
      if source_key = target_key then g
      else
        let existing := getCell g row_idx col_idx
        if should_apply_suggestion force existing dep_char then
          if (dep_char = '<' ∨ dep_char = '>') ∧ getCell g col_idx row_idx = dep_char then
            -- mutual collapse: upgrade both directions to 'x'
            let g1 := setCell g col_idx row_idx 'x'
            if existing ≠ 'x' then setCell g1 row_idx col_idx 'x' else g1
          else
            let g1 := if existing ≠ dep_char then setCell g row_idx col_idx dep_char else g
            match reciprocal_of dep_char with
            | some reciprocal_char =>
                let char_in_reverse := getCell g1 col_idx row_idx
                if (if force then decide (char_in_reverse ≠ 'x' ∧ char_in_reverse ≠ reciprocal_char)
                    else (decide (char_in_reverse = 'p') ||
                      decide (getCharPriority reciprocal_char > getCharPriority char_in_reverse)))
                then setCell g1 col_idx row_idx reciprocal_char
                else g1
            | none => g1
        else
          -- trailing conflict block (non-forced, existing ∉ {p, o}, differing)
          if ¬force ∧ existing ≠ 'p' ∧ existing ≠ 'o' ∧ existing ≠ dep_char then
            if knownChar existing && knownChar dep_char &&
                decide (existing ≠ 'n' ∧ getCharPriority dep_char > getCharPriority existing)
            then setCell g row_idx col_idx dep_char
            else g
          else g
  | _, _ => g

theorem findIdx?_getElem_eq {keys : List Key} {a : Key} {i : Nat}
    (h : keys.findIdx? (fun k => k = a) = some i) :
    ∃ hi : i < keys.length, keys[i] = a := by
  obtain ⟨hi, hp, _⟩ := List.findIdx?_eq_some_iff_getElem.mp h
  exact ⟨hi, of_decide_eq_true hp⟩

/-- If the suggestion is not applied and `force` is off, the grid is untouched
(the trailing conflict block repeats the failed guard, so it never fires). -/
theorem apply_suggestion_no_change (keys : List Key) (g : Mat)
    (source_key target_key : Key) (dep_char : Char)
    (h : should_apply_suggestion false (getCell g
        ((keys.findIdx? (fun k => k = source_key)).getD 0)
        ((keys.findIdx? (fun k => k = target_key)).getD 0)) dep_char = false) :
    apply_suggestion false keys g source_key target_key dep_char = g := by
  cases hs : keys.findIdx? (fun k => k = source_key) with
  | none => rw [apply_suggestion, hs]
  | some ri =>
    cases ht : keys.findIdx? (fun k => k = target_key) with
    | none => rw [apply_suggestion, hs, ht]
    | some ci =>
        rw [hs, ht] at h
        simp only [Option.getD_some] at h
        rw [apply_suggestion, hs, ht]
        dsimp only
        by_cases hst : source_key = target_key
        · rw [if_pos hst]
        · rw [if_neg hst]
          rw [h]
          simp only [Bool.false_eq_true, if_false]
          set e := getCell g ri ci with he
          by_cases hcond : e ≠ 'p' ∧ e ≠ 'o' ∧ e ≠ dep_char
          · rw [if_pos (⟨fun hf => hf.elim, hcond⟩ : ¬False ∧ e ≠ 'p' ∧ e ≠ 'o' ∧ e ≠ dep_char)]
            -- the inner guard equals the failed third branch of should_apply
            rw [should_apply_suggestion] at h
            simp only [Bool.false_eq_true, if_false] at h
            obtain ⟨hp, ho, hc⟩ := hcond
            rw [if_neg hp, if_pos ⟨ho, hc⟩] at h
            rw [h]
            simp
          · rw [if_neg (fun hc => hcond hc.2)]

/-- An applied suggestion always differs from the existing character. -/
theorem should_apply_ne (force : Bool) (existing c : Char)
    (h : should_apply_suggestion force existing c = true) : existing ≠ c := by
  rw [should_apply_suggestion] at h
  by_cases hf : force
  · rw [if_pos hf] at h
    exact (of_decide_eq_true h).2
  · rw [if_neg hf] at h
    by_cases hp : existing = 'p'
    · rw [if_pos hp] at h
      have := of_decide_eq_true h
      intro hec; rw [hp] at hec; exact this hec.symm
    · rw [if_neg hp] at h
      by_cases ho : existing ≠ 'o' ∧ existing ≠ c
      · exact ho.2
      · rw [if_neg ho] at h
        exact absurd h (by simp)

/-- A non-forced applied suggestion is never the placeholder character. -/
theorem should_apply_not_placeholder (existing c : Char)
    (h : should_apply_suggestion false existing c = true) : c ≠ 'p' := by
  rw [should_apply_suggestion] at h
  simp only [Bool.false_eq_true, if_false] at h
  by_cases hp : existing = 'p'
  · rw [if_pos hp] at h
    exact of_decide_eq_true h
  · rw [if_neg hp] at h
    by_cases ho : existing ≠ 'o' ∧ existing ≠ c
    · rw [if_pos ho] at h
      simp only [Bool.and_eq_true, decide_eq_true_eq] at h
      obtain ⟨⟨hke, hkc⟩, -, hgt⟩ := h
      have h1 := knownChar_priority_pos existing hke
      intro hcp
      rw [hcp] at hgt
      have hpp : getCharPriority 'p' = 1 := rfl
      rw [hpp] at hgt
      omega
    · rw [if_neg ho] at h
      exact absurd h (by simp)

/-- C4: in `update_tracker` without `force_apply`, a suggestion aimed at a cell
currently holding `n` is discarded — the grid is returned unchanged regardless
of the suggested character's priority; with `force_apply`, a suggestion with
`c ≠ p` differing from the current value is applied, so an `n` cell becomes `s`
under a forced `s` suggestion (stated for non-directional `c`, where no mutual
collapse can intervene). -/
theorem suggestion_n_protection (keys : List Key) (g : Mat)
    (source_key target_key : Key) (dep_char : Char) (n ri ci : Nat)
    (hs : keys.findIdx? (fun k => k = source_key) = some ri)
    (ht : keys.findIdx? (fun k => k = target_key) = some ci)
    (hn : getCell g ri ci = 'n') :
    apply_suggestion false keys g source_key target_key dep_char = g
    ∧ (WFMat g n → ri < n → ci < n → source_key ≠ target_key →
        dep_char ≠ 'p' → dep_char ≠ 'n' → dep_char ≠ '<' → dep_char ≠ '>' →
        getCell (apply_suggestion true keys g source_key target_key dep_char) ri ci
          = dep_char) := by
  have hsa_false : should_apply_suggestion false 'n' dep_char = false := by
    rw [should_apply_suggestion]
    simp only [Bool.false_eq_true, if_false]
    rw [if_neg (by decide : ¬('n' : Char) = 'p')]
    by_cases hc : ('n' : Char) ≠ 'o' ∧ ('n' : Char) ≠ dep_char
    · rw [if_pos hc]
      simp
    · rw [if_neg hc]
  constructor
  · apply apply_suggestion_no_change
    rw [hs, ht]
    simp only [Option.getD_some]
    rw [hn]
    exact hsa_false
  · intro hwf hri hci hst hp hnc hlt hgt
    have hsa_true : should_apply_suggestion true 'n' dep_char = true := by
      rw [should_apply_suggestion, if_pos rfl]
      exact decide_eq_true_eq.mpr ⟨hp, fun hh => hnc hh.symm⟩
    rw [apply_suggestion, hs, ht]
    dsimp only
    rw [if_neg hst, hn, hsa_true]
    simp only [if_true]
    rw [if_neg (by
      intro hcol
      rcases hcol.1 with hh | hh
      · exact hlt hh
      · exact hgt hh)]
    have hne : ('n' : Char) ≠ dep_char := fun hh => hnc hh.symm
    rw [if_pos hne]
    have hrec : reciprocal_of dep_char = none := by
      rw [reciprocal_of, if_neg hgt, if_neg hlt]
    rw [hrec]
    exact getCell_setCell_self g n ri ci dep_char hwf hri hci

/-- Witness for C4: an `n` cell survives a non-forced `s` suggestion and
becomes `s` under a forced one. -/
theorem suggestion_n_protection_witness :
    (List.findIdx? (fun k => k = "1A1") ["1A1", "1A2"] = some 0
       ∧ List.findIdx? (fun k => k = "1A2") ["1A1", "1A2"] = some 1
       ∧ getCell [['o', 'n'], ['p', 'o']] 0 1 = 'n')
    ∧ (apply_suggestion false ["1A1", "1A2"] [['o', 'n'], ['p', 'o']] "1A1" "1A2" 's'
         = [['o', 'n'], ['p', 'o']]
       ∧ (WFMat [['o', 'n'], ['p', 'o']] 2 → 0 < 2 → 1 < 2 → "1A1" ≠ "1A2" →
           's' ≠ 'p' → 's' ≠ 'n' → 's' ≠ '<' → 's' ≠ '>' →
           getCell (apply_suggestion true ["1A1", "1A2"] [['o', 'n'], ['p', 'o']]
             "1A1" "1A2" 's') 0 1 = 's'))
    ∧ getCell (apply_suggestion true ["1A1", "1A2"] [['o', 'n'], ['p', 'o']]
        "1A1" "1A2" 's') 0 1 = 's' :=
  ⟨⟨by decide, by decide, by decide⟩,
   suggestion_n_protection ["1A1", "1A2"] [['o', 'n'], ['p', 'o']] "1A1" "1A2" 's'
     2 0 1 (by decide) (by decide) (by decide),
   by decide⟩

/-- Unfolding equation for `apply_suggestion` in the applied case. -/
theorem apply_suggestion_applied_eq (force : Bool) (keys : List Key) (g : Mat)
    (source_key target_key : Key) (c : Char) (ri ci : Nat)
    (hs : keys.findIdx? (fun k => k = source_key) = some ri)
    (ht : keys.findIdx? (fun k => k = target_key) = some ci)
    (hst : source_key ≠ target_key)
    (hsa : should_apply_suggestion force (getCell g ri ci) c = true) :
    apply_suggestion force keys g source_key target_key c =
      (if (c = '<' ∨ c = '>') ∧ getCell g ci ri = c then
         if getCell g ri ci ≠ 'x' then setCell (setCell g ci ri 'x') ri ci 'x'
         else setCell g ci ri 'x'
       else
         let g1 := if getCell g ri ci ≠ c then setCell g ri ci c else g
         match reciprocal_of c with
         | some rc =>
             if (if force then decide (getCell g1 ci ri ≠ 'x' ∧ getCell g1 ci ri ≠ rc)
                 else (decide (getCell g1 ci ri = 'p') ||
                   decide (getCharPriority rc > getCharPriority (getCell g1 ci ri))))
             then setCell g1 ci ri rc else g1
         | none => g1) := by
  rw [apply_suggestion, hs, ht]
  dsimp only
  rw [if_neg hst, hsa]
  simp only [if_true]

/-- C5: when a directional suggestion is applied and the reverse cell already
holds the same directional character, both cells are upgraded to `x`;
otherwise the direct cell receives `c` and the reciprocal character is written
into the reverse cell exactly under the placeholder-or-strictly-weaker guard;
and re-applying the same non-forced suggestion to the resulting grid changes
nothing. -/
theorem mutual_collapse_idempotent (keys : List Key) (g : Mat)
    (source_key target_key : Key) (c : Char) (n ri ci : Nat)
    (hs : keys.findIdx? (fun k => k = source_key) = some ri)
    (ht : keys.findIdx? (fun k => k = target_key) = some ci)
    (hst : source_key ≠ target_key)
    (hwf : WFMat g n) (hri : ri < n) (hci : ci < n)
    (hdir : c = '<' ∨ c = '>') :
    (should_apply_suggestion false (getCell g ri ci) c = true →
      ((getCell g ci ri = c →
          getCell (apply_suggestion false keys g source_key target_key c) ri ci = 'x'
          ∧ getCell (apply_suggestion false keys g source_key target_key c) ci ri = 'x')
       ∧ (getCell g ci ri ≠ c →
          getCell (apply_suggestion false keys g source_key target_key c) ri ci = c
          ∧ ∀ rc, reciprocal_of c = some rc →
              getCell (apply_suggestion false keys g source_key target_key c) ci ri =
                (if getCell g ci ri = 'p'
                    ∨ getCharPriority rc > getCharPriority (getCell g ci ri)
                 then rc else getCell g ci ri))))
    ∧ apply_suggestion false keys
        (apply_suggestion false keys g source_key target_key c) source_key target_key c
      = apply_suggestion false keys g source_key target_key c := by
  obtain ⟨hriL, hriE⟩ := findIdx?_getElem_eq hs
  obtain ⟨hciL, hciE⟩ := findIdx?_getElem_eq ht
  have hrine : ri ≠ ci := by
    intro hh
    apply hst
    rw [← hriE, ← hciE]
    simp [hh]
  have hcp : c ≠ 'p' := by rcases hdir with h | h <;> simp [h]
  -- characterization of the applied result
  have happly : ∀ hsa : should_apply_suggestion false (getCell g ri ci) c = true,
      (getCell g ci ri = c →
        getCell (apply_suggestion false keys g source_key target_key c) ri ci = 'x'
        ∧ getCell (apply_suggestion false keys g source_key target_key c) ci ri = 'x')
      ∧ (getCell g ci ri ≠ c →
        getCell (apply_suggestion false keys g source_key target_key c) ri ci = c
        ∧ ∀ rc, reciprocal_of c = some rc →
            getCell (apply_suggestion false keys g source_key target_key c) ci ri =
              (if getCell g ci ri = 'p'
                  ∨ getCharPriority rc > getCharPriority (getCell g ci ri)
               then rc else getCell g ci ri)) := by
    intro hsa
    rw [apply_suggestion_applied_eq false keys g source_key target_key c ri ci hs ht hst hsa]
    constructor
    · intro hrev
      rw [if_pos ⟨hdir, hrev⟩]
      have hwf1 : WFMat (setCell g ci ri 'x') n := wf_setCell g n ci ri 'x' hwf
      by_cases hex : getCell g ri ci ≠ 'x'
      · rw [if_pos hex]
        constructor
        · exact getCell_setCell_self _ n ri ci 'x' hwf1 hri hci
        · rw [getCell_setCell_other _ ri ci ci ri 'x'
            (fun hh => hrine hh.1.symm)]
          exact getCell_setCell_self _ n ci ri 'x' hwf hci hri
      · rw [if_neg hex]
        push_neg at hex
        constructor
        · rw [getCell_setCell_other _ ci ri ri ci 'x' (fun hh => hrine hh.1)]
          exact hex
        · exact getCell_setCell_self _ n ci ri 'x' hwf hci hri
    · intro hrev
      rw [if_neg (fun hh => hrev hh.2)]
      have hne : getCell g ri ci ≠ c := should_apply_ne false _ c hsa
      rw [if_pos hne]
      have hrevg1 : getCell (setCell g ri ci c) ci ri = getCell g ci ri :=
        getCell_setCell_other _ ri ci ci ri c (fun hh => hrine hh.1.symm)
      rcases hdir with hc | hc
      · subst hc
        have hro : reciprocal_of '<' = some '>' := rfl
        rw [hro]
        dsimp only
        simp only [Bool.false_eq_true, if_false]
        rw [hrevg1]
        constructor
        · by_cases hg : (decide (getCell g ci ri = 'p') ||
              decide (getCharPriority '>' > getCharPriority (getCell g ci ri))) = true
          · rw [if_pos hg]
            rw [getCell_setCell_other _ ci ri ri ci '>' (fun hh => hrine hh.1)]
            exact getCell_setCell_self _ n ri ci '<' hwf hri hci
          · rw [if_neg hg]
            exact getCell_setCell_self _ n ri ci '<' hwf hri hci
        · intro rc hrc
          have hrceq : rc = '>' := ((Option.some.injEq _ _).mp hrc).symm
          subst hrceq
          by_cases hg : getCell g ci ri = 'p'
              ∨ getCharPriority '>' > getCharPriority (getCell g ci ri)
          · rw [if_pos hg]
            rw [if_pos (by
              rcases hg with hg | hg
              · simp [hg]
              · simp [hg])]
            exact getCell_setCell_self _ n ci ri '>'
              (wf_setCell g n ri ci '<' hwf) hci hri
          · rw [if_neg hg]
            push_neg at hg
            rw [if_neg (by
              simp only [Bool.or_eq_true, decide_eq_true_eq]
              push_neg
              exact hg)]
            exact hrevg1
      · subst hc
        have hro : reciprocal_of '>' = some '<' := rfl
        rw [hro]
        dsimp only
        simp only [Bool.false_eq_true, if_false]
        rw [hrevg1]
        constructor
        · by_cases hg : (decide (getCell g ci ri = 'p') ||
              decide (getCharPriority '<' > getCharPriority (getCell g ci ri))) = true
          · rw [if_pos hg]
            rw [getCell_setCell_other _ ci ri ri ci '<' (fun hh => hrine hh.1)]
            exact getCell_setCell_self _ n ri ci '>' hwf hri hci
          · rw [if_neg hg]
            exact getCell_setCell_self _ n ri ci '>' hwf hri hci
        · intro rc hrc
          have hrceq : rc = '<' := ((Option.some.injEq _ _).mp hrc).symm
          subst hrceq
          by_cases hg : getCell g ci ri = 'p'
              ∨ getCharPriority '<' > getCharPriority (getCell g ci ri)
          · rw [if_pos hg]
            rw [if_pos (by
              rcases hg with hg | hg
              · simp [hg]
              · simp [hg])]
            exact getCell_setCell_self _ n ci ri '<'
              (wf_setCell g n ri ci '>' hwf) hci hri
          · rw [if_neg hg]
            push_neg at hg
            rw [if_neg (by
              simp only [Bool.or_eq_true, decide_eq_true_eq]
              push_neg
              exact hg)]
            exact hrevg1
  refine ⟨happly, ?_⟩
  -- idempotence
  by_cases hsa : should_apply_suggestion false (getCell g ri ci) c = true
  · obtain ⟨hcol, hncol⟩ := happly hsa
    by_cases hrev : getCell g ci ri = c
    · obtain ⟨h1, h2⟩ := hcol hrev
      apply apply_suggestion_no_change
      rw [hs, ht]
      simp only [Option.getD_some]
      rw [h1]
      rcases hdir with hc | hc <;> subst hc <;> decide
    · obtain ⟨h1, -⟩ := hncol hrev
      apply apply_suggestion_no_change
      rw [hs, ht]
      simp only [Option.getD_some]
      rw [h1]
      rw [should_apply_suggestion]
      simp only [Bool.false_eq_true, if_false]
      rw [if_neg hcp]
      rw [if_neg (by intro hh; exact hh.2 rfl)]
  · have hzero : apply_suggestion false keys g source_key target_key c = g := by
      apply apply_suggestion_no_change
      rw [hs, ht]
      simp only [Option.getD_some]
      exact Bool.eq_false_iff.mpr hsa
    rw [hzero]
    exact hzero

/-- Witness for C5: a placeholder cell receives a `<` suggestion whose reverse
cell already holds `<`; both directions collapse to `x`, and re-running the
suggestion changes nothing. -/
theorem mutual_collapse_idempotent_witness :
    (List.findIdx? (fun k => k = "1A2") ["1A1", "1A2"] = some 1
       ∧ List.findIdx? (fun k => k = "1A1") ["1A1", "1A2"] = some 0
       ∧ ("1A2" : Key) ≠ "1A1" ∧ WFMat [['o', '<'], ['p', 'o']] 2
       ∧ (1 : Nat) < 2 ∧ (0 : Nat) < 2 ∧ (('<' : Char) = '<' ∨ ('<' : Char) = '>'))
    ∧ ((should_apply_suggestion false
          (getCell [['o', '<'], ['p', 'o']] 1 0) '<' = true →
        ((getCell [['o', '<'], ['p', 'o']] 0 1 = '<' →
            getCell (apply_suggestion false ["1A1", "1A2"] [['o', '<'], ['p', 'o']]
              "1A2" "1A1" '<') 1 0 = 'x'
            ∧ getCell (apply_suggestion false ["1A1", "1A2"] [['o', '<'], ['p', 'o']]
              "1A2" "1A1" '<') 0 1 = 'x')
         ∧ (getCell [['o', '<'], ['p', 'o']] 0 1 ≠ '<' →
            getCell (apply_suggestion false ["1A1", "1A2"] [['o', '<'], ['p', 'o']]
              "1A2" "1A1" '<') 1 0 = '<'
            ∧ ∀ rc, reciprocal_of '<' = some rc →
                getCell (apply_suggestion false ["1A1", "1A2"] [['o', '<'], ['p', 'o']]
                  "1A2" "1A1" '<') 0 1 =
                  (if getCell [['o', '<'], ['p', 'o']] 0 1 = 'p'
                      ∨ getCharPriority rc >
                          getCharPriority (getCell [['o', '<'], ['p', 'o']] 0 1)
                   then rc else getCell [['o', '<'], ['p', 'o']] 0 1))))
       ∧ apply_suggestion false ["1A1", "1A2"]
           (apply_suggestion false ["1A1", "1A2"] [['o', '<'], ['p', 'o']] "1A2" "1A1" '<')
           "1A2" "1A1" '<'
         = apply_suggestion false ["1A1", "1A2"] [['o', '<'], ['p', 'o']] "1A2" "1A1" '<')
    ∧ getCell (apply_suggestion false ["1A1", "1A2"] [['o', '<'], ['p', 'o']]
        "1A2" "1A1" '<') 1 0 = 'x'
    ∧ getCell (apply_suggestion false ["1A1", "1A2"] [['o', '<'], ['p', 'o']]
        "1A2" "1A1" '<') 0 1 = 'x' :=
  ⟨⟨by decide, by decide, by decide,
    ⟨rfl, fun i hi => by interval_cases i <;> rfl⟩, by decide, by decide, by decide⟩,
   mutual_collapse_idempotent ["1A1", "1A2"] [['o', '<'], ['p', 'o']] "1A2" "1A1" '<'
     2 1 0 (by decide) (by decide) (by decide)
     ⟨rfl, fun i hi => by interval_cases i <;> rfl⟩ (by decide) (by decide)
     (by decide),
   by decide, by decide⟩

/-! ### Final grid consolidation in `update_tracker` (claim C7) -/

/-- Embedded from `tracker_io.update_tracker`, the per-cell body of the final
consolidation loop: look up the globally authoritative character for the pair
(default placeholder), and replace the local character when the authoritative
one has strictly higher priority, or is `n` over an overwritable local
(`p`/`s`/`S`); priority `KeyError` skips the cell (`knownChar` guards). -/
def consolidate_cell (global_rels : List ((Key × Key) × Char))
    (row_key col_key : Key) (current_char : Char) : Char :=
  let authoritative_char := (alookup global_rels (row_key, col_key)).getD 'p'
  if authoritative_char ≠ 'p' then
    if knownChar authoritative_char && knownChar current_char then
      if getCharPriority authoritative_char > getCharPriority current_char
         ∨ (authoritative_char = 'n'
            ∧ (current_char = 'p' ∨ current_char = 's' ∨ current_char = 'S'))
      then authoritative_char else current_char
    else current_char
  else current_char

/-- Embedded from `tracker_io.update_tracker`: the consolidation pass over the
whole grid; diagonal cells are skipped. -/
def consolidate_grid (final_sorted_keys_list : List Key) (g : Mat)
    (global_rels : List ((Key × Key) × Char)) : Mat :=
  (List.range final_sorted_keys_list.length).map (fun i =>
    (List.range final_sorted_keys_list.length).map (fun j =>
      if i = j then getCell g i j
      else consolidate_cell global_rels
        (final_sorted_keys_list.getD i "") (final_sorted_keys_list.getD j "")
        (getCell g i j)))

theorem getCell_consolidate_grid (keys : List Key) (g : Mat)
    (global_rels : List ((Key × Key) × Char)) (i j : Nat)
    (hi : i < keys.length) (hj : j < keys.length) :
    getCell (consolidate_grid keys g global_rels) i j =
      (if i = j then getCell g i j
       else consolidate_cell global_rels (keys.getD i "") (keys.getD j "")
         (getCell g i j)) := by
  rw [getCell]
  have hrow : (consolidate_grid keys g global_rels).getD i [] =
      (List.range keys.length).map (fun j =>
        if i = j then getCell g i j
        else consolidate_cell global_rels (keys.getD i "") (keys.getD j "")
          (getCell g i j)) := by
    rw [consolidate_grid, List.getD_eq_getElem?_getD, List.getElem?_map,
      List.getElem?_range hi]
    rfl
  rw [hrow, List.getD_eq_getElem?_getD, List.getElem?_map, List.getElem?_range hj]
  rfl

/-- C7: in the global-consolidation step, a non-diagonal cell is replaced by
the globally aggregated winning character for its key pair if and only if that
winner has strictly higher priority than the local character or it is `n` with
the local character in `{p, s, S}`; otherwise (and on the diagonal) the cell is
unchanged.  Both characters are assumed to be in the priority table. -/
theorem consolidation_characterization (keys : List Key) (g : Mat)
    (global_rels : List ((Key × Key) × Char)) (i j : Nat)
    (hi : i < keys.length) (hj : j < keys.length)
    (hcur : knownChar (getCell g i j) = true)
    (hkn : ∀ w, alookup global_rels (keys.getD i "", keys.getD j "") = some w →
        knownChar w = true) :
    getCell (consolidate_grid keys g global_rels) i j =
      (if i = j then getCell g i j
       else
         match alookup global_rels (keys.getD i "", keys.getD j "") with
         | some w =>
             if getCharPriority w > getCharPriority (getCell g i j)
                ∨ (w = 'n' ∧ (getCell g i j = 'p' ∨ getCell g i j = 's'
                    ∨ getCell g i j = 'S'))
             then w else getCell g i j
         | none => getCell g i j) := by
  rw [getCell_consolidate_grid keys g global_rels i j hi hj]
  by_cases hij : i = j
  · rw [if_pos hij, if_pos hij]
  · rw [if_neg hij, if_neg hij]
    rw [consolidate_cell]
    match hlook : alookup global_rels (keys.getD i "", keys.getD j "") with
    | none => simp
    | some w =>
        have hw : knownChar w = true := hkn w hlook
        simp only [Option.getD_some]
        by_cases hwp : w = 'p'
        · subst hwp
          simp only [ne_eq, not_true_eq_false, if_neg, ite_false]
          have h1 : getCharPriority 'p' = 1 := rfl
          have h2 := knownChar_priority_pos _ hcur
          rw [if_neg (by
            push_neg
            constructor
            · rw [h1]; omega
            · intro hh; exact absurd hh (by decide))]
        · rw [if_pos hwp]
          rw [if_pos (by rw [hw, hcur]; rfl)]

/-- Witness for C7: a local `s` cell is replaced by a global `x` winner. -/
theorem consolidation_characterization_witness :
    ((0 : Nat) < (["1A", "1B"] : List Key).length
       ∧ (1 : Nat) < (["1A", "1B"] : List Key).length
       ∧ knownChar (getCell [['o', 's'], ['p', 'o']] 0 1) = true
       ∧ ∀ w, alookup [(("1A", "1B"), 'x')]
           ((["1A", "1B"] : List Key).getD 0 "", (["1A", "1B"] : List Key).getD 1 "") = some w →
           knownChar w = true)
    ∧ getCell (consolidate_grid ["1A", "1B"] [['o', 's'], ['p', 'o']]
        [(("1A", "1B"), 'x')]) 0 1 =
        (if (0 : Nat) = 1 then getCell [['o', 's'], ['p', 'o']] 0 1
         else
           match alookup [(("1A", "1B"), 'x')]
               ((["1A", "1B"] : List Key).getD 0 "", (["1A", "1B"] : List Key).getD 1 "") with
           | some w =>
               if getCharPriority w > getCharPriority (getCell [['o', 's'], ['p', 'o']] 0 1)
                  ∨ (w = 'n' ∧ (getCell [['o', 's'], ['p', 'o']] 0 1 = 'p'
                      ∨ getCell [['o', 's'], ['p', 'o']] 0 1 = 's'
                      ∨ getCell [['o', 's'], ['p', 'o']] 0 1 = 'S'))
               then w else getCell [['o', 's'], ['p', 'o']] 0 1
           | none => getCell [['o', 's'], ['p', 'o']] 0 1)
    ∧ getCell (consolidate_grid ["1A", "1B"] [['o', 's'], ['p', 'o']]
        [(("1A", "1B"), 'x')]) 0 1 = 'x' :=
  ⟨⟨by decide, by decide, by decide, by decide⟩,
   consolidation_characterization ["1A", "1B"] [['o', 's'], ['p', 'o']]
     [(("1A", "1B"), 'x')] 0 1 (by decide) (by decide) (by decide) (by decide),
   by decide⟩

/-! ### Mini-tracker cross-tracker import (claim C8) -/

/-- Embedded from `tracker_io.update_tracker`, the native/foreign import
update (lines 1266-1290): the home value replaces the local cell when its
priority is strictly higher, or it is `n` over an overwritable local; a
placeholder home value or a priority `KeyError` leaves the cell unchanged. -/
def nf_import_char (home_char current_char : Char) : Char :=
  if home_char ≠ 'p' then
    if knownChar home_char && knownChar current_char then
      if getCharPriority home_char > getCharPriority current_char
         ∨ (home_char = 'n'
            ∧ (current_char = 'p' ∨ current_char = 's' ∨ current_char = 'S'))
      then home_char else current_char
    else current_char
  else current_char

/-- Embedded from `tracker_io.update_tracker`, the foreign/foreign import
update (lines 1366-1392): overwritable local characters take verified positive
home characters; `p`/`s`/`S` take a home `n`; a placeholder pair on both sides
defaults to `n`. -/
def ff_import_char (home_char current_char : Char) : Char :=
  if (current_char = 'p' ∨ current_char = 's' ∨ current_char = 'S' ∨ current_char = 'n')
     ∧ (home_char = '<' ∨ home_char = '>' ∨ home_char = 'x' ∨ home_char = 'd')
  then home_char
  else if (current_char = 'p' ∨ current_char = 's' ∨ current_char = 'S')
      ∧ home_char = 'n'
  then home_char
  else if current_char = 'p' ∧ home_char = 'p' then 'n'
  else current_char

/-- The claim's replacement rule: local overwritable (`{p,s,S,n}`) and home a
verified positive character (`{<,>,x,d}`), or local in `{p,s,S}` and home `n`. -/
def claim_import_condition (home_char current_char : Char) : Prop :=
  ((current_char = 'p' ∨ current_char = 's' ∨ current_char = 'S' ∨ current_char = 'n')
     ∧ (home_char = '<' ∨ home_char = '>' ∨ home_char = 'x' ∨ home_char = 'd'))
  ∨ ((current_char = 'p' ∨ current_char = 's' ∨ current_char = 'S')
     ∧ home_char = 'n')

instance (home_char current_char : Char) :
    Decidable (claim_import_condition home_char current_char) := by
  unfold claim_import_condition; infer_instance

/-- Counterexample to C8: for a native/foreign pair with local `s` and home
`S`, the code replaces the cell (priority rule), but the claim's
character-set rule forbids the replacement (`S` is not a verified positive
character and is not `n`). -/
theorem nf_import_counterexample :
    nf_import_char 'S' 's' = 'S'
    ∧ ¬ claim_import_condition 'S' 's'
    ∧ ('S' : Char) ≠ 's' :=
  ⟨by decide, by decide, by decide⟩

/-- C8 (amended): the foreign/foreign import direction follows the claim's
character-set rule together with the `p`/`p` → `n` default, while the
native/foreign direction replaces the local cell iff the home character has
strictly higher priority or is `n` over a local in `{p,s,S}`. -/
theorem import_rules_amended (home_char current_char : Char)
    (hhk : knownChar home_char = true) (hck : knownChar current_char = true) :
    ff_import_char home_char current_char =
      (if claim_import_condition home_char current_char then home_char
       else if current_char = 'p' ∧ home_char = 'p' then 'n' else current_char)
    ∧ nf_import_char home_char current_char =
      (if getCharPriority home_char > getCharPriority current_char
          ∨ (home_char = 'n'
             ∧ (current_char = 'p' ∨ current_char = 's' ∨ current_char = 'S'))
       then home_char else current_char) := by
  constructor
  · rw [ff_import_char]
    by_cases h1 : (current_char = 'p' ∨ current_char = 's' ∨ current_char = 'S'
        ∨ current_char = 'n')
        ∧ (home_char = '<' ∨ home_char = '>' ∨ home_char = 'x' ∨ home_char = 'd')
    · rw [if_pos h1, if_pos (show claim_import_condition home_char current_char from Or.inl h1)]
    · rw [if_neg h1]
      by_cases h2 : (current_char = 'p' ∨ current_char = 's' ∨ current_char = 'S')
          ∧ home_char = 'n'
      · rw [if_pos h2, if_pos (show claim_import_condition home_char current_char from Or.inr h2)]
      · rw [if_neg h2, if_neg (show ¬ claim_import_condition home_char current_char by
          intro hh
          rcases hh with hh | hh
          · exact h1 hh
          · exact h2 hh)]
  · rw [nf_import_char]
    by_cases hp : home_char = 'p'
    · subst hp
      simp only [ne_eq, not_true_eq_false, if_neg, ite_false]
      have h1 : getCharPriority 'p' = 1 := rfl
      have h2 := knownChar_priority_pos _ hck
      rw [if_neg (by
        push_neg
        constructor
        · rw [h1]; omega
        · intro hh; exact absurd hh (by decide))]
    · rw [if_pos hp, if_pos (by rw [hhk, hck]; rfl)]

/-- Witness for C8's amended theorem at home `S`, local `s`: the
native/foreign rule replaces (`S` outranks `s`), the foreign/foreign rule does
not. -/
theorem import_rules_amended_witness :
    (knownChar 'S' = true ∧ knownChar 's' = true)
    ∧ (ff_import_char 'S' 's' =
        (if claim_import_condition 'S' 's' then 'S'
         else if ('s' : Char) = 'p' ∧ ('S' : Char) = 'p' then 'n' else 's')
       ∧ nf_import_char 'S' 's' =
        (if getCharPriority 'S' > getCharPriority 's'
            ∨ (('S' : Char) = 'n' ∧ (('s' : Char) = 'p' ∨ ('s' : Char) = 's'
                ∨ ('s' : Char) = 'S'))
         then 'S' else 's'))
    ∧ ff_import_char 'S' 's' = 's' ∧ nf_import_char 'S' 's' = 'S' :=
  ⟨⟨by decide, by decide⟩,
   import_rules_amended 'S' 's' (by decide) (by decide),
   by decide, by decide⟩

/-! ### Mini-tracker relevant-key scan of the existing grid (claim C9) -/

/-- Embedded from `tracker_io.update_tracker`: the minimum priority for a link
to persist a foreign key (`get_priority('s')`, floored at 2). -/
def min_positive_priority : Nat :=
  let m := getCharPriority 's'
  if m ≤ 1 then 2 else m

/-- Python `set.add` on the relevant-key collection (guarded by a membership
check in the source). -/
def insert_key (s : List Key) (k : Key) : List Key := if k ∈ s then s else s ++ [k]

theorem mem_insert_key (s : List Key) (k a : Key) :
    a ∈ insert_key s k ↔ a ∈ s ∨ a = k := by
  rw [insert_key]
  by_cases h : k ∈ s
  · rw [if_pos h]
    constructor
    · exact Or.inl
    · rintro (ha | ha)
      · exact ha
      · rw [ha]; exact h
  · rw [if_neg h]
    simp

/-- Embedded from the per-cell conditions of the scan loop (lines 718-746):
the foreign endpoint persisted by one cell, if any.  The `except KeyError:
pass` around the priority lookup is modelled by the `knownChar` guard. -/
def cell_foreign_key (internal old_keys_list : List Key) (row_key : Key)
    (col_idx : Nat) (dep_char : Char) : Option Key :=
  match old_keys_list.get? col_idx with
  | none => none
  | some col_key =>
      if row_key = col_key then none
      else if dep_char ≠ 'n' ∧ knownChar dep_char = true
          ∧ min_positive_priority ≤ getCharPriority dep_char
          ∧ is_file_key row_key = true ∧ is_file_key col_key = true then
        if row_key ∈ internal ∧ col_key ∉ internal then some col_key
        else if row_key ∉ internal ∧ col_key ∈ internal then some row_key
        else none
      else none

def scan_row_cells (internal old_keys_list : List Key) (row_key : Key) :
    List (Nat × Char) → List Key → List Key
  | [], relevant => relevant
  | (col_idx, dep_char) :: rest, relevant =>
      scan_row_cells internal old_keys_list row_key rest
        (match cell_foreign_key internal old_keys_list row_key col_idx dep_char with
         | some k => insert_key relevant k
         | none => relevant)

def scan_rows (internal old_keys_list : List Key) :
    List (Key × List Char) → List Key → List Key
  | [], relevant => relevant
  | (row_key, comp) :: rest, relevant =>
      scan_rows internal old_keys_list rest
        (if row_key ∈ old_keys_list then
           if (decompress comp).length = old_keys_list.length then
             scan_row_cells internal old_keys_list row_key
               (decompress comp).enum relevant
           else relevant
         else relevant)

/-- Embedded from `tracker_io.update_tracker` (mini trackers, lines 702-750):
scan the existing grid and add persisted foreign file keys to the relevant set,
which starts as a copy of the internal key set. -/
def scan_existing_grid_for_foreign_keys (internal : List Key)
    (existing_key_defs : List (Key × Path))
    (existing_grid : List (Key × List Char)) : List Key :=
  scan_rows internal
    (sort_key_strings_hierarchically (existing_key_defs.map Prod.fst))
    existing_grid internal

theorem mem_scan_row_cells (internal old_keys_list : List Key) (row_key : Key)
    (cells : List (Nat × Char)) (relevant : List Key) (a : Key) :
    a ∈ scan_row_cells internal old_keys_list row_key cells relevant ↔
      a ∈ relevant ∨ ∃ e ∈ cells,
        cell_foreign_key internal old_keys_list row_key e.1 e.2 = some a := by
  induction cells generalizing relevant with
  | nil => simp [scan_row_cells]
  | cons e rest ih =>
      obtain ⟨col_idx, dep_char⟩ := e
      rw [scan_row_cells, ih]
      match hck : cell_foreign_key internal old_keys_list row_key col_idx dep_char with
      | some k =>
          rw [mem_insert_key]
          constructor
          · rintro ((ha | ha) | ⟨e, he, hb⟩)
            · exact Or.inl ha
            · exact Or.inr ⟨(col_idx, dep_char), by simp, by rw [hck, ha]⟩
            · exact Or.inr ⟨e, by simp [he], hb⟩
          · rintro (ha | ⟨e, he, hb⟩)
            · exact Or.inl (Or.inl ha)
            · rcases List.mem_cons.mp he with he1 | he1
              · subst he1
                rw [hck] at hb
                exact Or.inl (Or.inr ((Option.some.injEq _ _).mp hb).symm)
              · exact Or.inr ⟨e, he1, hb⟩
      | none =>
          constructor
          · rintro (ha | ⟨e, he, hb⟩)
            · exact Or.inl ha
            · exact Or.inr ⟨e, by simp [he], hb⟩
          · rintro (ha | ⟨e, he, hb⟩)
            · exact Or.inl ha
            · rcases List.mem_cons.mp he with he1 | he1
              · subst he1
                rw [hck] at hb
                exact absurd hb (by simp)
              · exact Or.inr ⟨e, he1, hb⟩

theorem mem_scan_rows (internal old_keys_list : List Key)
    (rows : List (Key × List Char)) (relevant : List Key) (a : Key) :
    a ∈ scan_rows internal old_keys_list rows relevant ↔
      a ∈ relevant ∨ ∃ r ∈ rows, r.1 ∈ old_keys_list
        ∧ (decompress r.2).length = old_keys_list.length
        ∧ ∃ e ∈ (decompress r.2).enum,
            cell_foreign_key internal old_keys_list r.1 e.1 e.2 = some a := by
  induction rows generalizing relevant with
  | nil => simp [scan_rows]
  | cons r rest ih =>
      obtain ⟨row_key, comp⟩ := r
      rw [scan_rows, ih]
      by_cases h1 : row_key ∈ old_keys_list
      · by_cases h2 : (decompress comp).length = old_keys_list.length
        · rw [if_pos h1, if_pos h2, mem_scan_row_cells]
          constructor
          · rintro ((ha | ⟨e, he, hb⟩) | ⟨r, hr, hro⟩)
            · exact Or.inl ha
            · exact Or.inr ⟨(row_key, comp), by simp, h1, h2, e, he, hb⟩
            · exact Or.inr ⟨r, by simp [hr], hro⟩
          · rintro (ha | ⟨r, hr, hh1, hh2, e, he, hb⟩)
            · exact Or.inl (Or.inl ha)
            · rcases List.mem_cons.mp hr with hr1 | hr1
              · subst hr1
                exact Or.inl (Or.inr ⟨e, he, hb⟩)
              · exact Or.inr ⟨r, hr1, hh1, hh2, e, he, hb⟩
        · rw [if_pos h1, if_neg h2]
          constructor
          · rintro (ha | ⟨r, hr, hro⟩)
            · exact Or.inl ha
            · exact Or.inr ⟨r, by simp [hr], hro⟩
          · rintro (ha | ⟨r, hr, hh1, hh2, e, he, hb⟩)
            · exact Or.inl ha
            · rcases List.mem_cons.mp hr with hr1 | hr1
              · rw [hr1] at hh2
                exact absurd hh2 h2
              · exact Or.inr ⟨r, hr1, hh1, hh2, e, he, hb⟩
      · rw [if_neg h1]
        constructor
        · rintro (ha | ⟨r, hr, hro⟩)
          · exact Or.inl ha
          · exact Or.inr ⟨r, by simp [hr], hro⟩
        · rintro (ha | ⟨r, hr, hh1, hh2, e, he, hb⟩)
          · exact Or.inl ha
          · rcases List.mem_cons.mp hr with hr1 | hr1
            · rw [hr1] at hh1
              exact absurd hh1 h1
            · exact Or.inr ⟨r, hr1, hh1, hh2, e, he, hb⟩

/-- C9: a foreign key `K` (not internal to the module) is added by the
existing-grid scan if and only if some well-formed cell of the existing grid
links it to an internal key with a character that is not `n`, is in the
priority table, and has priority at least `priority('s')` (floored at 2), with
both endpoint keys being file keys (ending in a digit). -/
theorem mini_foreign_key_retention (internal : List Key)
    (existing_key_defs : List (Key × Path))
    (existing_grid : List (Key × List Char)) (K : Key)
    (hK : K ∉ internal) :
    K ∈ scan_existing_grid_for_foreign_keys internal existing_key_defs existing_grid ↔
      ∃ row_key comp col_idx col_key dep_char,
        (row_key, comp) ∈ existing_grid
        ∧ row_key ∈ sort_key_strings_hierarchically (existing_key_defs.map Prod.fst)
        ∧ (decompress comp).length =
            (sort_key_strings_hierarchically (existing_key_defs.map Prod.fst)).length
        ∧ (sort_key_strings_hierarchically (existing_key_defs.map Prod.fst)).get? col_idx
            = some col_key
        ∧ (decompress comp).get? col_idx = some dep_char
        ∧ row_key ≠ col_key
        ∧ dep_char ≠ 'n' ∧ knownChar dep_char = true
        ∧ min_positive_priority ≤ getCharPriority dep_char
        ∧ is_file_key row_key = true ∧ is_file_key col_key = true
        ∧ ((row_key ∈ internal ∧ col_key = K) ∨ (col_key ∈ internal ∧ row_key = K)) := by
  set okl := sort_key_strings_hierarchically (existing_key_defs.map Prod.fst) with hokl
  rw [scan_existing_grid_for_foreign_keys, ← hokl, mem_scan_rows]
  constructor
  · rintro (ha | ⟨r, hr, hh1, hh2, e, he, hb⟩)
    · exact absurd ha hK
    · obtain ⟨row_key, comp⟩ := r
      obtain ⟨col_idx, dep_char⟩ := e
      dsimp only at hh1 hh2 he hb
      rw [cell_foreign_key] at hb
      match hcol : okl.get? col_idx with
      | none => rw [hcol] at hb; exact absurd hb (by simp)
      | some col_key =>
          rw [hcol] at hb
          dsimp only at hb
          by_cases hrc : row_key = col_key
          · rw [if_pos hrc] at hb; exact absurd hb (by simp)
          · rw [if_neg hrc] at hb
            by_cases hcond : dep_char ≠ 'n' ∧ knownChar dep_char = true
                ∧ min_positive_priority ≤ getCharPriority dep_char
                ∧ is_file_key row_key = true ∧ is_file_key col_key = true
            · rw [if_pos hcond] at hb
              obtain ⟨hc1, hc2, hc3, hc4, hc5⟩ := hcond
              have hdep : (decompress comp).get? col_idx = some dep_char := by
                have := List.mk_mem_enum_iff_getElem?.mp he
                simpa [List.get?_eq_getElem?] using this
              by_cases hdir : row_key ∈ internal ∧ col_key ∉ internal
              · rw [if_pos hdir] at hb
                have hck : col_key = K := (Option.some.injEq _ _).mp hb
                exact ⟨row_key, comp, col_idx, col_key, dep_char, hr, hh1, hh2,
                  hcol, hdep, hrc, hc1, hc2, hc3, hc4, hc5,
                  Or.inl ⟨hdir.1, hck⟩⟩
              · rw [if_neg hdir] at hb
                by_cases hdir2 : row_key ∉ internal ∧ col_key ∈ internal
                · rw [if_pos hdir2] at hb
                  have hrk : row_key = K := (Option.some.injEq _ _).mp hb
                  exact ⟨row_key, comp, col_idx, col_key, dep_char, hr, hh1, hh2,
                    hcol, hdep, hrc, hc1, hc2, hc3, hc4, hc5,
                    Or.inr ⟨hdir2.2, hrk⟩⟩
                · rw [if_neg hdir2] at hb
                  exact absurd hb (by simp)
            · rw [if_neg hcond] at hb
              exact absurd hb (by simp)
  · rintro ⟨row_key, comp, col_idx, col_key, dep_char, hr, hh1, hh2, hcol, hdep,
      hrc, hc1, hc2, hc3, hc4, hc5, hdir⟩
    refine Or.inr ⟨(row_key, comp), hr, hh1, hh2, (col_idx, dep_char), ?_, ?_⟩
    · apply List.mk_mem_enum_iff_getElem?.mpr
      simpa [List.get?_eq_getElem?] using hdep
    · show cell_foreign_key internal okl row_key col_idx dep_char = some K
      rw [cell_foreign_key, hcol]
      dsimp only
      rw [if_neg hrc, if_pos ⟨hc1, hc2, hc3, hc4, hc5⟩]
      rcases hdir with ⟨hint, hck⟩ | ⟨hint, hrk⟩
      · rw [if_pos ⟨hint, by rw [hck]; exact hK⟩]
        rw [hck]
      · rw [if_neg (by
          rintro ⟨hri, -⟩
          rw [hrk] at hri
          exact hK hri)]
        rw [if_pos ⟨by rw [hrk]; exact hK, hint⟩]
        rw [hrk]

/-- Witness for C9: a foreign file key `2B1` with an existing `<` link from the
internal file `1A1` is retained by the scan. -/
theorem mini_foreign_key_retention_witness :
    ("2B1" : Key) ∉ (["1A1"] : List Key)
    ∧ ("2B1" ∈ scan_existing_grid_for_foreign_keys ["1A1"]
        [("1A1", "m/a.py"), ("2B1", "o/b.py")] [("1A1", ['o', '<'])] ↔
      ∃ row_key comp col_idx col_key dep_char,
        (row_key, comp) ∈ ([("1A1", ['o', '<'])] : List (Key × List Char))
        ∧ row_key ∈ sort_key_strings_hierarchically
            (([("1A1", "m/a.py"), ("2B1", "o/b.py")] : List (Key × Path)).map Prod.fst)
        ∧ (decompress comp).length =
            (sort_key_strings_hierarchically
              (([("1A1", "m/a.py"), ("2B1", "o/b.py")] : List (Key × Path)).map Prod.fst)).length
        ∧ (sort_key_strings_hierarchically
            (([("1A1", "m/a.py"), ("2B1", "o/b.py")] : List (Key × Path)).map Prod.fst)).get? col_idx
            = some col_key
        ∧ (decompress comp).get? col_idx = some dep_char
        ∧ row_key ≠ col_key
        ∧ dep_char ≠ 'n' ∧ knownChar dep_char = true
        ∧ min_positive_priority ≤ getCharPriority dep_char
        ∧ is_file_key row_key = true ∧ is_file_key col_key = true
        ∧ ((row_key ∈ (["1A1"] : List Key) ∧ col_key = "2B1")
           ∨ (col_key ∈ (["1A1"] : List Key) ∧ row_key = "2B1")))
    ∧ "2B1" ∈ scan_existing_grid_for_foreign_keys ["1A1"]
        [("1A1", "m/a.py"), ("2B1", "o/b.py")] [("1A1", ['o', '<'])]
    ∧ "2B1" ∉ scan_existing_grid_for_foreign_keys ["1A1"]
        [("1A1", "m/a.py"), ("2B1", "o/b.py")] [("1A1", ['o', 'p'])] :=
  ⟨by decide,
   mini_foreign_key_retention ["1A1"] [("1A1", "m/a.py"), ("2B1", "o/b.py")]
     [("1A1", ['o', '<'])] "2B1" (by decide),
   by decide, by decide⟩

/-! ### Grid migration in `update_tracker` (claim C1).

Embedded from the "Copy old values (Using Path Migration Map)" block
(lines 1000-1103): starting from a freshly initialized N×N matrix, every cell
of the prior grid whose value is not `o`/`p`/`P` and whose row and column
resolve — through the tracker's own key definitions, the path migration map,
and the final key list — to stable new indices is copied, but only when the
target cell still holds the placeholder. -/

abbrev Migration := List (Path × (Option Key × Option Key))

def copy_cell_step (path_migration_info : Migration)
    (old_key_to_path : List (Key × Path))
    (final_sorted_keys_list old_keys_list_sorted : List Key)
    (new_row_idx old_col_idx : Nat) (value : Char) (g : Mat) : Mat :=
  if value = 'o' ∨ value = 'p' ∨ value = 'P' then g
  else
    match old_keys_list_sorted.get? old_col_idx with
    | none => g
    | some old_col_key =>
        match alookup old_key_to_path old_col_key with
        | none => g
        | some old_col_path =>
            match alookup path_migration_info old_col_path with
            | none => g
            | some mig =>
                match mig.2 with
                | none => g
                | some new_col_key =>
                    match final_sorted_keys_list.findIdx? (fun k => k = new_col_key) with
                    | none => g
                    | some new_col_idx =>
                        if new_row_idx ≠ new_col_idx
                           ∧ getCell g new_row_idx new_col_idx = 'p'
                        then setCell g new_row_idx new_col_idx value
                        else g

def copy_row_cells (pmi : Migration) (okp : List (Key × Path))
    (fk okl : List Key) (new_row_idx : Nat) :
    List (Nat × Char) → Mat → Mat
  | [], g => g
  | (idx, v) :: rest, g =>
      copy_row_cells pmi okp fk okl new_row_idx rest
        (copy_cell_step pmi okp fk okl new_row_idx idx v g)

def copy_row (pmi : Migration) (okp : List (Key × Path)) (fk okl : List Key)
    (row : Key × List Char) (g : Mat) : Mat :=
  match alookup okp row.1 with
  | none => g
  | some old_row_path =>
      match alookup pmi old_row_path with
      | none => g
      | some mig =>
          match mig.2 with
          | none => g
          | some new_row_key =>
              match fk.findIdx? (fun k => k = new_row_key) with
              | none => g
              | some new_row_idx =>
                  if (decompress row.2).length = okl.length then
                    copy_row_cells pmi okp fk okl new_row_idx
                      (decompress row.2).enum g
                  else g

def copy_rows (pmi : Migration) (okp : List (Key × Path)) (fk okl : List Key) :
    List (Key × List Char) → Mat → Mat
  | [], g => g
  | r :: rest, g => copy_rows pmi okp fk okl rest (copy_row pmi okp fk okl r g)

/-- Embedded from `tracker_io.update_tracker`: the whole migration pass — a
fresh N×N matrix (diagonal `o`, elsewhere `p`) filled from the prior grid. -/
def copy_old_grid_values (pmi : Migration) (existing_key_defs : List (Key × Path))
    (final_sorted_keys_list : List Key)
    (existing_grid : List (Key × List Char)) : Mat :=
  copy_rows pmi existing_key_defs final_sorted_keys_list
    (sort_key_strings_hierarchically (existing_key_defs.map Prod.fst))
    existing_grid (create_initial_matrix final_sorted_keys_list.length)

/-- The static (grid-independent) conditions under which one old cell writes
value `v` to target position `(a, b)` of the new matrix. -/
def cell_writes (pmi : Migration) (okp : List (Key × Path)) (fk okl : List Key)
    (new_row_idx old_col_idx : Nat) (v : Char) (a b : Nat) : Prop :=
  new_row_idx = a ∧ a ≠ b ∧ ¬(v = 'o' ∨ v = 'p' ∨ v = 'P')
  ∧ ∃ ck cp mig nk, okl.get? old_col_idx = some ck
      ∧ alookup okp ck = some cp
      ∧ alookup pmi cp = some mig
      ∧ mig.2 = some nk
      ∧ fk.findIdx? (fun k => k = nk) = some b

/-- The old row `row_key` resolves to new row index `i`. -/
def row_targets (pmi : Migration) (okp : List (Key × Path)) (fk : List Key)
    (row_key : Key) (i : Nat) : Prop :=
  ∃ rp mig nk, alookup okp row_key = some rp
    ∧ alookup pmi rp = some mig
    ∧ mig.2 = some nk
    ∧ fk.findIdx? (fun k => k = nk) = some i

/-- One cell of one old row migrates its value to position `(i, j)`. -/
def cell_targets (pmi : Migration) (okp : List (Key × Path)) (fk okl : List Key)
    (row_key : Key) (comp : List Char) (old_col_idx : Nat) (i j : Nat) : Prop :=
  row_targets pmi okp fk row_key i
  ∧ (decompress comp).length = okl.length
  ∧ ∃ v, (decompress comp).get? old_col_idx = some v
      ∧ cell_writes pmi okp fk okl i old_col_idx v i j

theorem copy_cell_step_writes (pmi : Migration) (okp : List (Key × Path))
    (fk okl : List Key) (nri idx : Nat) (v : Char) (g : Mat) (a b : Nat)
    (hw : cell_writes pmi okp fk okl nri idx v a b)
    (hp : getCell g a b = 'p') :
    copy_cell_step pmi okp fk okl nri idx v g = setCell g a b v := by
  obtain ⟨hra, hab, hval, ck, cp, mig, nk, hck, hcp, hmig, hnk, hfi⟩ := hw
  subst hra
  rw [copy_cell_step, if_neg hval]
  simp only [hck, hcp, hmig, hnk, hfi]
  rw [if_pos ⟨hab, hp⟩]

theorem copy_cell_step_other (pmi : Migration) (okp : List (Key × Path))
    (fk okl : List Key) (nri idx : Nat) (v : Char) (g : Mat) (a b : Nat)
    (hnw : ¬ cell_writes pmi okp fk okl nri idx v a b) :
    getCell (copy_cell_step pmi okp fk okl nri idx v g) a b = getCell g a b := by
  rw [copy_cell_step]
  by_cases hval : v = 'o' ∨ v = 'p' ∨ v = 'P'
  · rw [if_pos hval]
  · rw [if_neg hval]
    cases hck : okl.get? idx with
    | none => rfl
    | some ck =>
      dsimp only
      cases hcp : alookup okp ck with
      | none => rfl
      | some cp =>
        dsimp only
        cases hmig : alookup pmi cp with
        | none => rfl
        | some mig =>
          dsimp only
          cases hnk : mig.2 with
          | none => rfl
          | some nk =>
            dsimp only
            cases hfi : fk.findIdx? (fun k => k = nk) with
            | none => rfl
            | some ncj =>
              dsimp only
              by_cases hcond : nri ≠ ncj ∧ getCell g nri ncj = 'p'
              · rw [if_pos hcond]
                apply getCell_setCell_other
                rintro ⟨haa, hbb⟩
                exact hnw ⟨haa.symm, by omega,
                  hval, ck, cp, mig, nk, hck, hcp, hmig, hnk, by rw [hfi, hbb]⟩
              · rw [if_neg hcond]

theorem copy_cell_step_preserves_ne (pmi : Migration) (okp : List (Key × Path))
    (fk okl : List Key) (nri idx : Nat) (v : Char) (g : Mat) (a b : Nat)
    (hne : getCell g a b ≠ 'p') :
    getCell (copy_cell_step pmi okp fk okl nri idx v g) a b = getCell g a b := by
  by_cases hw : cell_writes pmi okp fk okl nri idx v a b
  · rw [copy_cell_step]
    obtain ⟨hra, hab, hval, ck, cp, mig, nk, hck, hcp, hmig, hnk, hfi⟩ := hw
    subst hra
    rw [if_neg hval]
    simp only [hck, hcp, hmig, hnk, hfi]
    by_cases hcond : nri ≠ b ∧ getCell g nri b = 'p'
    · exact absurd hcond.2 hne
    · rw [if_neg hcond]
  · exact copy_cell_step_other pmi okp fk okl nri idx v g a b hw

theorem copy_cell_step_shape (pmi : Migration) (okp : List (Key × Path))
    (fk okl : List Key) (nri idx : Nat) (v : Char) (g : Mat) :
    copy_cell_step pmi okp fk okl nri idx v g = g
    ∨ ∃ a b c, copy_cell_step pmi okp fk okl nri idx v g = setCell g a b c := by
  rw [copy_cell_step]
  by_cases hval : v = 'o' ∨ v = 'p' ∨ v = 'P'
  · rw [if_pos hval]; left; rfl
  · rw [if_neg hval]
    cases hck : okl.get? idx with
    | none => left; rfl
    | some ck =>
      dsimp only
      cases hcp : alookup okp ck with
      | none => left; rfl
      | some cp =>
        dsimp only
        cases hmig : alookup pmi cp with
        | none => left; rfl
        | some mig =>
          dsimp only
          cases hnk : mig.2 with
          | none => left; rfl
          | some nk =>
            dsimp only
            cases hfi : fk.findIdx? (fun k => k = nk) with
            | none => left; rfl
            | some ncj =>
              dsimp only
              by_cases hcond : nri ≠ ncj ∧ getCell g nri ncj = 'p'
              · rw [if_pos hcond]; right; exact ⟨nri, ncj, v, rfl⟩
              · rw [if_neg hcond]; left; rfl

theorem wf_copy_cell_step (pmi : Migration) (okp : List (Key × Path))
    (fk okl : List Key) (nri idx : Nat) (v : Char) (g : Mat) (n : Nat)
    (hwf : WFMat g n) : WFMat (copy_cell_step pmi okp fk okl nri idx v g) n := by
  rcases copy_cell_step_shape pmi okp fk okl nri idx v g with h | ⟨a, b, c, h⟩
  · rw [h]; exact hwf
  · rw [h]; exact wf_setCell g n a b c hwf

theorem copy_row_cells_preserves_ne (pmi : Migration) (okp : List (Key × Path))
    (fk okl : List Key) (nri : Nat) (cells : List (Nat × Char)) (g : Mat) (a b : Nat)
    (hne : getCell g a b ≠ 'p') :
    getCell (copy_row_cells pmi okp fk okl nri cells g) a b = getCell g a b := by
  induction cells generalizing g with
  | nil => rfl
  | cons e rest ih =>
      obtain ⟨idx, v⟩ := e
      rw [copy_row_cells]
      have hstep := copy_cell_step_preserves_ne pmi okp fk okl nri idx v g a b hne
      rw [ih _ (by rw [hstep]; exact hne), hstep]

theorem wf_copy_row_cells (pmi : Migration) (okp : List (Key × Path))
    (fk okl : List Key) (nri : Nat) (cells : List (Nat × Char)) (g : Mat) (n : Nat)
    (hwf : WFMat g n) : WFMat (copy_row_cells pmi okp fk okl nri cells g) n := by
  induction cells generalizing g with
  | nil => exact hwf
  | cons e rest ih =>
      obtain ⟨idx, v⟩ := e
      rw [copy_row_cells]
      exact ih _ (wf_copy_cell_step pmi okp fk okl nri idx v g n hwf)

theorem copy_row_cells_preserves_p (pmi : Migration) (okp : List (Key × Path))
    (fk okl : List Key) (nri : Nat) (cells : List (Nat × Char)) (g : Mat) (a b : Nat)
    (hp : getCell g a b = 'p')
    (hnw : ∀ e ∈ cells, ¬ cell_writes pmi okp fk okl nri e.1 e.2 a b) :
    getCell (copy_row_cells pmi okp fk okl nri cells g) a b = 'p' := by
  induction cells generalizing g with
  | nil => exact hp
  | cons e rest ih =>
      obtain ⟨idx, v⟩ := e
      rw [copy_row_cells]
      have hstep := copy_cell_step_other pmi okp fk okl nri idx v g a b
        (hnw (idx, v) (by simp))
      exact ih _ (by rw [hstep]; exact hp) (fun e he => hnw e (by simp [he]))

theorem copy_row_cells_write_result (pmi : Migration) (okp : List (Key × Path))
    (fk okl : List Key) (nri : Nat) (cells : List (Nat × Char)) (g : Mat)
    (a b n : Nat) (idx : Nat) (v : Char)
    (hwf : WFMat g n) (ha : a < n) (hb : b < n)
    (hp : getCell g a b = 'p')
    (hmem : (idx, v) ∈ cells)
    (hw : cell_writes pmi okp fk okl nri idx v a b)
    (huni : ∀ e ∈ cells, cell_writes pmi okp fk okl nri e.1 e.2 a b → e = (idx, v)) :
    getCell (copy_row_cells pmi okp fk okl nri cells g) a b = v := by
  induction cells generalizing g with
  | nil => simp at hmem
  | cons e rest ih =>
      obtain ⟨idx0, v0⟩ := e
      rw [copy_row_cells]
      by_cases hew : cell_writes pmi okp fk okl nri idx0 v0 a b
      · have heq := huni (idx0, v0) (by simp) hew
        have hidx : idx0 = idx := ((Prod.mk.injEq _ _ _ _).mp heq).1
        have hv0 : v0 = v := ((Prod.mk.injEq _ _ _ _).mp heq).2
        subst hidx; subst hv0
        rw [copy_cell_step_writes pmi okp fk okl nri idx0 v0 g a b hew hp]
        have hset : getCell (setCell g a b v0) a b = v0 :=
          getCell_setCell_self g n a b v0 hwf ha hb
        have hvne : v0 ≠ 'p' := by
          intro hh
          exact hew.2.2.1 (Or.inr (Or.inl hh))
        rw [copy_row_cells_preserves_ne pmi okp fk okl nri rest _ a b
          (by rw [hset]; exact hvne), hset]
      · have hstep := copy_cell_step_other pmi okp fk okl nri idx0 v0 g a b hew
        have hmem' : (idx, v) ∈ rest := by
          rcases List.mem_cons.mp hmem with hh | hh
          · have h1 : idx = idx0 := ((Prod.mk.injEq _ _ _ _).mp hh).1
            have h2 : v = v0 := ((Prod.mk.injEq _ _ _ _).mp hh).2
            rw [h1, h2] at hw
            exact absurd hw hew
          · exact hh
        exact ih _ (wf_copy_cell_step pmi okp fk okl nri idx0 v0 g n hwf)
          (by rw [hstep]; exact hp) hmem'
          (fun e he hwe => huni e (by simp [he]) hwe)

theorem wf_copy_row (pmi : Migration) (okp : List (Key × Path)) (fk okl : List Key)
    (r : Key × List Char) (g : Mat) (n : Nat) (hwf : WFMat g n) :
    WFMat (copy_row pmi okp fk okl r g) n := by
  rw [copy_row]
  cases alookup okp r.1 with
  | none => exact hwf
  | some rp =>
    dsimp only
    cases alookup pmi rp with
    | none => exact hwf
    | some mig =>
      dsimp only
      cases mig.2 with
      | none => exact hwf
      | some nk =>
        dsimp only
        cases fk.findIdx? (fun k => k = nk) with
        | none => exact hwf
        | some nri =>
          dsimp only
          by_cases hlen : (decompress r.2).length = okl.length
          · rw [if_pos hlen]
            exact wf_copy_row_cells pmi okp fk okl nri _ g n hwf
          · rw [if_neg hlen]; exact hwf

theorem copy_row_preserves_ne (pmi : Migration) (okp : List (Key × Path))
    (fk okl : List Key) (r : Key × List Char) (g : Mat) (a b : Nat)
    (hne : getCell g a b ≠ 'p') :
    getCell (copy_row pmi okp fk okl r g) a b = getCell g a b := by
  rw [copy_row]
  cases alookup okp r.1 with
  | none => rfl
  | some rp =>
    dsimp only
    cases alookup pmi rp with
    | none => rfl
    | some mig =>
      dsimp only
      cases mig.2 with
      | none => rfl
      | some nk =>
        dsimp only
        cases fk.findIdx? (fun k => k = nk) with
        | none => rfl
        | some nri =>
          dsimp only
          by_cases hlen : (decompress r.2).length = okl.length
          · rw [if_pos hlen]
            exact copy_row_cells_preserves_ne pmi okp fk okl nri _ g a b hne
          · rw [if_neg hlen]

theorem copy_row_preserves_p (pmi : Migration) (okp : List (Key × Path))
    (fk okl : List Key) (r : Key × List Char) (g : Mat) (a b : Nat)
    (hp : getCell g a b = 'p')
    (hnt : ∀ idx, ¬ cell_targets pmi okp fk okl r.1 r.2 idx a b) :
    getCell (copy_row pmi okp fk okl r g) a b = 'p' := by
  rw [copy_row]
  cases hrp : alookup okp r.1 with
  | none => exact hp
  | some rp =>
    dsimp only
    cases hmig : alookup pmi rp with
    | none => exact hp
    | some mig =>
      dsimp only
      cases hnk : mig.2 with
      | none => exact hp
      | some nk =>
        dsimp only
        cases hfi : fk.findIdx? (fun k => k = nk) with
        | none => exact hp
        | some nri =>
          dsimp only
          by_cases hlen : (decompress r.2).length = okl.length
          · rw [if_pos hlen]
            apply copy_row_cells_preserves_p pmi okp fk okl nri _ g a b hp
            rintro ⟨e1, e2⟩ he hwe
            apply hnt e1
            have hget : (decompress r.2).get? e1 = some e2 := by
              have := List.mk_mem_enum_iff_getElem?.mp he
              simpa [List.get?_eq_getElem?] using this
            refine ⟨⟨rp, mig, nk, hrp, hmig, hnk, by rw [hfi, hwe.1]⟩, hlen, e2, hget, ?_⟩
            have hwe' := hwe
            rw [hwe.1] at hwe'
            exact hwe'
          · rw [if_neg hlen]; exact hp

theorem copy_row_write_result (pmi : Migration) (okp : List (Key × Path))
    (fk okl : List Key) (r : Key × List Char) (g : Mat) (a b n idx : Nat) (v : Char)
    (hwf : WFMat g n) (ha : a < n) (hb : b < n)
    (hp : getCell g a b = 'p')
    (hrt : row_targets pmi okp fk r.1 a)
    (hlen : (decompress r.2).length = okl.length)
    (hv : (decompress r.2).get? idx = some v)
    (hw : cell_writes pmi okp fk okl a idx v a b)
    (huni : ∀ idx', cell_targets pmi okp fk okl r.1 r.2 idx' a b → idx' = idx) :
    getCell (copy_row pmi okp fk okl r g) a b = v := by
  obtain ⟨rp, mig, nk, hrp, hmig, hnk, hfi⟩ := hrt
  rw [copy_row]
  simp only [hrp, hmig, hnk, hfi]
  rw [if_pos hlen]
  apply copy_row_cells_write_result pmi okp fk okl a _ g a b n idx v hwf ha hb hp
  · apply List.mk_mem_enum_iff_getElem?.mpr
    simpa [List.get?_eq_getElem?] using hv
  · exact hw
  · rintro ⟨e1, e2⟩ he hwe
    have hget : (decompress r.2).get? e1 = some e2 := by
      have := List.mk_mem_enum_iff_getElem?.mp he
      simpa [List.get?_eq_getElem?] using this
    have htg : cell_targets pmi okp fk okl r.1 r.2 e1 a b :=
      ⟨⟨rp, mig, nk, hrp, hmig, hnk, hfi⟩, hlen, e2, hget, hwe⟩
    have hidx := huni e1 htg
    have hvv : e2 = v := by
      rw [hidx, hv] at hget
      exact ((Option.some.injEq _ _).mp hget).symm
    rw [hidx, hvv]

theorem copy_rows_preserves_ne (pmi : Migration) (okp : List (Key × Path))
    (fk okl : List Key) (rows : List (Key × List Char)) (g : Mat) (a b : Nat)
    (hne : getCell g a b ≠ 'p') :
    getCell (copy_rows pmi okp fk okl rows g) a b = getCell g a b := by
  induction rows generalizing g with
  | nil => rfl
  | cons r rest ih =>
      rw [copy_rows]
      have hstep := copy_row_preserves_ne pmi okp fk okl r g a b hne
      rw [ih _ (by rw [hstep]; exact hne), hstep]

theorem copy_rows_write_result (pmi : Migration) (okp : List (Key × Path))
    (fk okl : List Key) (rows : List (Key × List Char)) (g : Mat)
    (a b n idx : Nat) (v : Char) (row_key : Key) (comp : List Char)
    (hwf : WFMat g n) (ha : a < n) (hb : b < n)
    (hp : getCell g a b = 'p')
    (hmem : (row_key, comp) ∈ rows)
    (hrt : row_targets pmi okp fk row_key a)
    (hlen : (decompress comp).length = okl.length)
    (hv : (decompress comp).get? idx = some v)
    (hw : cell_writes pmi okp fk okl a idx v a b)
    (huni : ∀ r ∈ rows, ∀ idx', cell_targets pmi okp fk okl r.1 r.2 idx' a b →
        r = (row_key, comp) ∧ idx' = idx) :
    getCell (copy_rows pmi okp fk okl rows g) a b = v := by
  induction rows generalizing g with
  | nil => simp at hmem
  | cons r rest ih =>
      rw [copy_rows]
      by_cases hrtarg : ∃ idx', cell_targets pmi okp fk okl r.1 r.2 idx' a b
      · obtain ⟨idx', htg⟩ := hrtarg
        obtain ⟨hreq, hieq⟩ := huni r (by simp) idx' htg
        subst hieq
        have hrow : getCell (copy_row pmi okp fk okl r g) a b = v := by
          rw [hreq]
          apply copy_row_write_result pmi okp fk okl (row_key, comp) g a b n idx' v
            hwf ha hb hp hrt hlen hv hw
          intro idx2 htg2
          exact (huni (row_key, comp)
            (by rw [← hreq]; simp) idx2 (by rw [← hreq] at htg2 ⊢; exact htg2)).2
        have hvne : v ≠ 'p' := fun hh => hw.2.2.1 (Or.inr (Or.inl hh))
        rw [copy_rows_preserves_ne pmi okp fk okl rest _ a b (by rw [hrow]; exact hvne), hrow]
      · push_neg at hrtarg
        have hstep : getCell (copy_row pmi okp fk okl r g) a b = 'p' :=
          copy_row_preserves_p pmi okp fk okl r g a b hp hrtarg
        have hmem' : (row_key, comp) ∈ rest := by
          rcases List.mem_cons.mp hmem with hh | hh
          · exfalso
            apply hrtarg idx
            rw [← hh]
            exact ⟨hrt, hlen, v, hv, hw⟩
          · exact hh
        exact ih _ (wf_copy_row pmi okp fk okl r g n hwf) hstep hmem'
          (fun r hr idx' htg => huni r (by simp [hr]) idx' htg)

/-- C1 (amended): during grid migration, a prior-grid cell with value
`v ∉ {o, p, P}` whose row and column paths are stable and whose new keys are in
the final key set is copied to the corresponding position of the freshly
initialized matrix, provided that position still holds the placeholder — so
when it is the only migrating source for its target position, the new cell
holds exactly `v`.  A target already filled by an earlier migrated value is
left unchanged regardless of priority. -/
theorem grid_migration_copies_unique_stable_cell (pmi : Migration)
    (existing_key_defs : List (Key × Path)) (final_sorted_keys_list : List Key)
    (existing_grid : List (Key × List Char)) (row_key : Key) (comp : List Char)
    (old_col_idx i j : Nat) (v : Char)
    (hi : i < final_sorted_keys_list.length) (hj : j < final_sorted_keys_list.length)
    (hmem : (row_key, comp) ∈ existing_grid)
    (hrt : row_targets pmi existing_key_defs final_sorted_keys_list row_key i)
    (hlen : (decompress comp).length =
      (sort_key_strings_hierarchically (existing_key_defs.map Prod.fst)).length)
    (hv : (decompress comp).get? old_col_idx = some v)
    (hw : cell_writes pmi existing_key_defs final_sorted_keys_list
      (sort_key_strings_hierarchically (existing_key_defs.map Prod.fst))
      i old_col_idx v i j)
    (huni : ∀ r ∈ existing_grid, ∀ idx',
        cell_targets pmi existing_key_defs final_sorted_keys_list
          (sort_key_strings_hierarchically (existing_key_defs.map Prod.fst))
          r.1 r.2 idx' i j →
        r = (row_key, comp) ∧ idx' = old_col_idx) :
    getCell (copy_old_grid_values pmi existing_key_defs final_sorted_keys_list
      existing_grid) i j = v := by
  rw [copy_old_grid_values]
  have hij : i ≠ j := hw.2.1
  apply copy_rows_write_result pmi existing_key_defs final_sorted_keys_list _
    existing_grid _ i j final_sorted_keys_list.length old_col_idx v row_key comp
    (wf_create_initial_matrix _) hi hj
    (by rw [getCell_create_initial_matrix _ i j hi hj, if_neg (fun hh => hij hh.symm)])
    hmem hrt hlen hv hw huni

/-- Counterexample to C1 as stated: two stable prior cells (values `s` and
`x`) migrate to the same target position because the stale tracker maps two
old keys to one path; the first-processed `s` wins and the higher-priority `x`
is skipped, so the cell does not "hold whichever of the two characters has
higher priority". -/
theorem grid_migration_priority_counterexample :
    getCell (copy_old_grid_values
      [("a.py", (some "1B1", some "1A1")), ("c.py", (some "1B3", some "1A2"))]
      [("1B1", "a.py"), ("1B2", "a.py"), ("1B3", "c.py")]
      ["1A1", "1A2"]
      [("1B1", ['o', 'p', 's']), ("1B2", ['p', 'o', 'x'])]) 0 1 = 's'
    ∧ cell_targets
        [("a.py", (some "1B1", some "1A1")), ("c.py", (some "1B3", some "1A2"))]
        [("1B1", "a.py"), ("1B2", "a.py"), ("1B3", "c.py")]
        ["1A1", "1A2"]
        (sort_key_strings_hierarchically ["1B1", "1B2", "1B3"])
        "1B2" ['p', 'o', 'x'] 2 0 1
    ∧ getCharPriority 'x' > getCharPriority 's'
    ∧ ('s' : Char) ≠ 'x' := by
  refine ⟨by decide, ?_, by decide, by decide⟩
  refine ⟨⟨"a.py", (some "1B1", some "1A1"), "1A1", by decide, by decide, by decide,
    by decide⟩, by decide, 'x', by decide,
    rfl, by decide, by decide, "1B3", "c.py", (some "1B3", some "1A2"), "1A2",
    by decide, by decide, by decide, by decide, by decide⟩

/-- Witness for C1's amended theorem: a single stable `<` cell migrates to the
renamed keys. -/
theorem grid_migration_copies_unique_stable_cell_witness :
    ((0 : Nat) < (["1A1", "1A2"] : List Key).length
       ∧ (1 : Nat) < (["1A1", "1A2"] : List Key).length
       ∧ (("1B1", ['o', '<']) : Key × List Char) ∈
           ([("1B1", ['o', '<'])] : List (Key × List Char)))
    ∧ getCell (copy_old_grid_values
        [("a.py", (some "1B1", some "1A1")), ("b.py", (some "1B2", some "1A2"))]
        [("1B1", "a.py"), ("1B2", "b.py")] ["1A1", "1A2"]
        [("1B1", ['o', '<'])]) 0 1 = '<' :=
  ⟨⟨by decide, by decide, by decide⟩,
   grid_migration_copies_unique_stable_cell
     [("a.py", (some "1B1", some "1A1")), ("b.py", (some "1B2", some "1A2"))]
     [("1B1", "a.py"), ("1B2", "b.py")] ["1A1", "1A2"] [("1B1", ['o', '<'])]
     "1B1" ['o', '<'] 1 0 1 '<' (by decide) (by decide) (by decide)
     ⟨"a.py", (some "1B1", some "1A1"), "1A1", by decide, by decide, by decide, by decide⟩
     (by decide) (by decide)
     ⟨by decide, by decide, by decide,
      "1B2", "b.py", (some "1B2", some "1A2"), "1A2",
      by decide, by decide, by decide, by decide, by decide⟩
     (by
       rintro ⟨rk, rcomp⟩ hr idx' ⟨hrt', hlen', v', hv', hw'⟩
       simp only [List.mem_singleton, Prod.mk.injEq] at hr
       constructor
       · simp [hr.1, hr.2]
       · rw [hr.2] at hv'
         have hdec : decompress ['o', '<'] = ['o', '<'] := rfl
         rw [hdec] at hv'
         have hlt : idx' < 2 := by
           by_contra hge
           push_neg at hge
           rw [List.get?_eq_getElem?, List.getElem?_eq_none (by simpa using hge)] at hv'
           exact absurd hv' (by simp)
         interval_cases idx'
         · exfalso
           have hv0 : v' = 'o' := by simpa using hv'.symm
           exact hw'.2.2.1 (Or.inl (by rw [hv0]))
         · rfl)⟩

/-! ### Structural rules in `update_tracker` (claim C6).

Embedded from the "COMMON Structural Dependency Calculation & Application"
block (lines 1106-1150): for doc and mini trackers, rules originate from
directory rows; a directory/descendant pair gets `x` in both directions, and
for doc trackers any other pair seen from a directory row gets `n` in both
directions; rules apply only to placeholder cells. -/

/-- Modelled from the spec: `is_subpath` lives in `utils/path_utils.py`, which
is not in the source tree — a path is a subpath of a directory when it lies
strictly below it (forward-slash paths). -/
def is_subpath (child parent : String) : Bool :=
  (parent.data ++ ['/']).isPrefixOf child.data

abbrev SD := List ((Key × Key) × Char)

def sd_insert_pair (sd : SD) (a b : Key) (ch : Char) : SD :=
  sd ++ [((a, b), ch), ((b, a), ch)]

def structural_cols (tracker_type : String) (infos : List (Key × (Path × Bool)))
    (row_key : Key) (row_path : Path) : List Key → SD → SD
  | [], sd => sd
  | col_key :: cols, sd =>
      structural_cols tracker_type infos row_key row_path cols
        (if col_key = row_key then sd
         else match alookup infos col_key with
           | none => sd
           | some cinfo =>
               if (alookup sd (row_key, col_key)).isSome then sd
               else if is_subpath cinfo.1 row_path then
                 sd_insert_pair sd row_key col_key 'x'
               else if tracker_type = "doc" then
                 sd_insert_pair sd row_key col_key 'n'
               else sd)

def structural_rows (tracker_type : String) (infos : List (Key × (Path × Bool)))
    (keys : List Key) : List Key → SD → SD
  | [], sd => sd
  | row_key :: rows, sd =>
      structural_rows tracker_type infos keys rows
        (match alookup infos row_key with
         | none => sd
         | some rinfo =>
             if rinfo.2 then structural_cols tracker_type infos row_key rinfo.1 keys sd
             else sd)

/-- Embedded from `tracker_io.update_tracker`: the structural-dependency map
computed over the final sorted key list. -/
def compute_structural_deps (tracker_type : String)
    (infos : List (Key × (Path × Bool))) (final_sorted_keys_list : List Key) : SD :=
  structural_rows tracker_type infos final_sorted_keys_list final_sorted_keys_list []

/-- Embedded from `tracker_io.update_tracker`: apply the structural rules to
the grid, writing only into placeholder cells. -/
def apply_structural_deps (keys : List Key) : SD → Mat → Mat
  | [], g => g
  | (pair, ch) :: rest, g =>
      apply_structural_deps keys rest
        (match keys.findIdx? (fun k => k = pair.1),
               keys.findIdx? (fun k => k = pair.2) with
         | some i, some j =>
             if i ≠ j ∧ getCell g i j = 'p' then setCell g i j ch else g
         | _, _ => g)

theorem alookup_append {α β : Type} [DecidableEq α] (l1 l2 : List (α × β)) (a : α) :
    alookup (l1 ++ l2) a =
      (match alookup l1 a with
       | some v => some v
       | none => alookup l2 a) := by
  induction l1 with
  | nil => rfl
  | cons kv rest ih =>
      obtain ⟨k, v⟩ := kv
      by_cases h : a = k <;> simp [alookup, h, ih]

theorem structural_cols_shape (tt : String) (infos : List (Key × (Path × Bool)))
    (rk : Key) (rp : Path) (cols : List Key) (sd : SD) :
    ∃ tail, structural_cols tt infos rk rp cols sd = sd ++ tail
      ∧ ∀ e ∈ tail, (e.1.1 = rk ∨ e.1.2 = rk) ∧ e.2 ≠ 'p' := by
  induction cols generalizing sd with
  | nil => exact ⟨[], by simp [structural_cols]⟩
  | cons c cols ih =>
      rw [structural_cols]
      by_cases h1 : c = rk
      · rw [if_pos h1]; exact ih sd
      · rw [if_neg h1]
        cases hci : alookup infos c with
        | none => exact ih sd
        | some cinfo =>
            dsimp only
            by_cases h2 : (alookup sd (rk, c)).isSome
            · rw [if_pos h2]; exact ih sd
            · rw [if_neg h2]
              by_cases h3 : is_subpath cinfo.1 rp = true
              · rw [if_pos h3]
                obtain ⟨tail, htail, hmem⟩ := ih (sd_insert_pair sd rk c 'x')
                refine ⟨[((rk, c), 'x'), ((c, rk), 'x')] ++ tail, ?_, ?_⟩
                · rw [htail, sd_insert_pair, List.append_assoc]
                · intro e he
                  rcases List.mem_append.mp he with he | he
                  · rcases List.mem_cons.mp he with he | he
                    · rw [he]; exact ⟨Or.inl rfl, by simp⟩
                    · simp only [List.mem_singleton] at he
                      rw [he]; exact ⟨Or.inr rfl, by simp⟩
                  · exact hmem e he
              · rw [if_neg h3]
                by_cases h4 : tt = "doc"
                · rw [if_pos h4]
                  obtain ⟨tail, htail, hmem⟩ := ih (sd_insert_pair sd rk c 'n')
                  refine ⟨[((rk, c), 'n'), ((c, rk), 'n')] ++ tail, ?_, ?_⟩
                  · rw [htail, sd_insert_pair, List.append_assoc]
                  · intro e he
                    rcases List.mem_append.mp he with he | he
                    · rcases List.mem_cons.mp he with he | he
                      · rw [he]; exact ⟨Or.inl rfl, by simp⟩
                      · simp only [List.mem_singleton] at he
                        rw [he]; exact ⟨Or.inr rfl, by simp⟩
                    · exact hmem e he
                · rw [if_neg h4]; exact ih sd

theorem structural_rows_shape (tt : String) (infos : List (Key × (Path × Bool)))
    (keys : List Key) (rows : List Key) (sd : SD) :
    ∃ tail, structural_rows tt infos keys rows sd = sd ++ tail
      ∧ ∀ e ∈ tail, (e.1.1 ∈ rows ∨ e.1.2 ∈ rows) ∧ e.2 ≠ 'p' := by
  induction rows generalizing sd with
  | nil => exact ⟨[], by simp [structural_rows]⟩
  | cons r rows ih =>
      rw [structural_rows]
      cases hri : alookup infos r with
      | none =>
          obtain ⟨tail, htail, hmem⟩ := ih sd
          exact ⟨tail, htail, fun e he =>
            ⟨(hmem e he).1.elim (fun h => Or.inl (by simp [h]))
              (fun h => Or.inr (by simp [h])), (hmem e he).2⟩⟩
      | some rinfo =>
          dsimp only
          by_cases hd : rinfo.2 = true
          · rw [if_pos hd]
            obtain ⟨tail1, htail1, hmem1⟩ :=
              structural_cols_shape tt infos r rinfo.1 keys sd
            rw [htail1]
            obtain ⟨tail2, htail2, hmem2⟩ := ih (sd ++ tail1)
            rw [htail2, List.append_assoc]
            refine ⟨tail1 ++ tail2, rfl, ?_⟩
            intro e he
            rcases List.mem_append.mp he with he | he
            · exact ⟨(hmem1 e he).1.elim (fun h => Or.inl (by simp [h]))
                (fun h => Or.inr (by simp [h])), (hmem1 e he).2⟩
            · exact ⟨(hmem2 e he).1.elim (fun h => Or.inl (by simp [h]))
                (fun h => Or.inr (by simp [h])), (hmem2 e he).2⟩
          · rw [if_neg hd]
            obtain ⟨tail, htail, hmem⟩ := ih sd
            exact ⟨tail, htail, fun e he =>
              ⟨(hmem e he).1.elim (fun h => Or.inl (by simp [h]))
                (fun h => Or.inr (by simp [h])), (hmem e he).2⟩⟩

theorem structural_cols_monotone (tt : String) (infos : List (Key × (Path × Bool)))
    (rk : Key) (rp : Path) (cols : List Key) (sd : SD) (p : Key × Key) (v : Char)
    (h : alookup sd p = some v) :
    alookup (structural_cols tt infos rk rp cols sd) p = some v := by
  obtain ⟨tail, htail, -⟩ := structural_cols_shape tt infos rk rp cols sd
  rw [htail, alookup_append, h]

theorem structural_rows_monotone (tt : String) (infos : List (Key × (Path × Bool)))
    (keys rows : List Key) (sd : SD) (p : Key × Key) (v : Char)
    (h : alookup sd p = some v) :
    alookup (structural_rows tt infos keys rows sd) p = some v := by
  obtain ⟨tail, htail, -⟩ := structural_rows_shape tt infos keys rows sd
  rw [htail, alookup_append, h]

theorem structural_cols_frame (tt : String) (infos : List (Key × (Path × Bool)))
    (rk : Key) (rp : Path) (cols : List Key) (sd : SD) (a b : Key)
    (ha : rk ≠ a) (hb : rk ≠ b) :
    alookup (structural_cols tt infos rk rp cols sd) (a, b) = alookup sd (a, b) := by
  obtain ⟨tail, htail, hmem⟩ := structural_cols_shape tt infos rk rp cols sd
  rw [htail, alookup_append]
  cases hsd : alookup sd (a, b) with
  | some v => rfl
  | none =>
      dsimp only
      refine alookup_none_of_not_mem_fst tail (a, b) ?_
      intro hin
      obtain ⟨e, he, hfst⟩ := List.mem_map.mp hin
      rcases (hmem e he).1 with h | h
      · exact ha (by rw [← h, hfst])
      · exact hb (by rw [← h, hfst])

theorem sd_insert_pair_lookup_left (sd : SD) (a b : Key) (ch : Char)
    (h : alookup sd (a, b) = none) :
    alookup (sd_insert_pair sd a b ch) (a, b) = some ch := by
  rw [sd_insert_pair, alookup_append, h]
  simp [alookup]

theorem sd_insert_pair_lookup_right (sd : SD) (a b : Key) (ch : Char)
    (hab : a ≠ b) (h : alookup sd (b, a) = none) :
    alookup (sd_insert_pair sd a b ch) (b, a) = some ch := by
  rw [sd_insert_pair, alookup_append, h]
  dsimp only
  rw [alookup, if_neg (fun h => hab (congrArg Prod.fst h).symm)]
  rw [alookup, if_pos rfl]

theorem structural_cols_sets (tt : String) (infos : List (Key × (Path × Bool)))
    (rk : Key) (rp : Path) (ck : Key) (cinfo : Path × Bool) (ch : Char)
    (hne : ck ≠ rk)
    (hci : alookup infos ck = some cinfo)
    (hch : (if is_subpath cinfo.1 rp then 'x' else 'n') = ch)
    (hdoc : is_subpath cinfo.1 rp = false → tt = "doc") :
    ∀ cols sd, ck ∈ cols →
      alookup sd (rk, ck) = none → alookup sd (ck, rk) = none →
      alookup (structural_cols tt infos rk rp cols sd) (rk, ck) = some ch ∧
      alookup (structural_cols tt infos rk rp cols sd) (ck, rk) = some ch := by
  intro cols
  induction cols with
  | nil => intro sd h; simp at h
  | cons c cols ih =>
      intro sd hmem h1 h2
      rw [structural_cols]
      by_cases hc : c = ck
      · subst hc
        rw [if_neg hne, hci]
        dsimp only
        rw [if_neg (by rw [h1]; simp)]
        by_cases hsub : is_subpath cinfo.1 rp = true
        · rw [if_pos hsub]
          rw [if_pos hsub] at hch
          constructor
          · exact structural_cols_monotone _ _ _ _ _ _ _ _
              (hch ▸ sd_insert_pair_lookup_left sd rk c 'x' h1)
          · exact structural_cols_monotone _ _ _ _ _ _ _ _
              (hch ▸ sd_insert_pair_lookup_right sd rk c 'x' (fun h => hne h.symm) h2)
        · rw [if_neg hsub, if_pos (hdoc (Bool.eq_false_iff.mpr hsub))]
          rw [if_neg hsub] at hch
          constructor
          · exact structural_cols_monotone _ _ _ _ _ _ _ _
              (hch ▸ sd_insert_pair_lookup_left sd rk c 'n' h1)
          · exact structural_cols_monotone _ _ _ _ _ _ _ _
              (hch ▸ sd_insert_pair_lookup_right sd rk c 'n' (fun h => hne h.symm) h2)
      · have hmem' : ck ∈ cols := by
          rcases List.mem_cons.mp hmem with h | h
          · exact absurd h.symm hc
          · exact h
        by_cases hcr : c = rk
        · rw [if_pos hcr]; exact ih sd hmem' h1 h2
        · rw [if_neg hcr]
          cases hcinfo : alookup infos c with
          | none => exact ih sd hmem' h1 h2
          | some ci =>
              dsimp only
              by_cases hseen : (alookup sd (rk, c)).isSome
              · rw [if_pos hseen]; exact ih sd hmem' h1 h2
              · rw [if_neg hseen]
                have hstep : ∀ ch' : Char,
                    alookup (sd_insert_pair sd rk c ch') (rk, ck) = none ∧
                    alookup (sd_insert_pair sd rk c ch') (ck, rk) = none := by
                  intro ch'
                  constructor
                  · rw [sd_insert_pair, alookup_append, h1]
                    dsimp only
                    rw [alookup, if_neg (fun h => hc (congrArg Prod.snd h).symm)]
                    rw [alookup, if_neg (fun h => hc ((congrArg Prod.fst h).symm.trans (congrArg Prod.snd h).symm))]
                    rfl
                  · rw [sd_insert_pair, alookup_append, h2]
                    dsimp only
                    rw [alookup, if_neg (fun h => hne (congrArg Prod.fst h))]
                    rw [alookup, if_neg (fun h => hc (congrArg Prod.fst h).symm)]
                    rfl
                by_cases hsub : is_subpath ci.1 rp = true
                · rw [if_pos hsub]
                  exact ih _ hmem' (hstep 'x').1 (hstep 'x').2
                · rw [if_neg hsub]
                  by_cases hdoc' : tt = "doc"
                  · rw [if_pos hdoc']
                    exact ih _ hmem' (hstep 'n').1 (hstep 'n').2
                  · rw [if_neg hdoc']; exact ih sd hmem' h1 h2

theorem structural_rows_x (tt : String) (infos : List (Key × (Path × Bool)))
    (keys : List Key) (kD kC : Key) (pathD : Path) (cinfo : Path × Bool)
    (hne : kD ≠ kC)
    (hinfD : alookup infos kD = some (pathD, true))
    (hinfC : alookup infos kC = some cinfo)
    (hsub : is_subpath cinfo.1 pathD = true)
    (hkC : kC ∈ keys) :
    ∀ pre post sd, kD ∉ pre → kC ∉ pre →
      alookup sd (kD, kC) = none → alookup sd (kC, kD) = none →
      alookup (structural_rows tt infos keys (pre ++ kD :: post) sd) (kD, kC) = some 'x' ∧
      alookup (structural_rows tt infos keys (pre ++ kD :: post) sd) (kC, kD) = some 'x' := by
  intro pre
  induction pre with
  | nil =>
      intro post sd _ _ h1 h2
      rw [List.nil_append, structural_rows]
      simp only [hinfD]
      have hsets := structural_cols_sets tt infos kD pathD kC cinfo 'x'
        (fun h => hne h.symm) hinfC (by rw [hsub]; rfl)
        (fun h => absurd hsub (by rw [h]; exact Bool.false_ne_true)) keys sd hkC h1 h2
      exact ⟨structural_rows_monotone _ _ _ _ _ _ _ hsets.1,
             structural_rows_monotone _ _ _ _ _ _ _ hsets.2⟩
  | cons r pre ih =>
      intro post sd hD hC h1 h2
      have hrD : r ≠ kD := fun h => hD (by rw [h]; exact List.mem_cons_self _ _)
      have hrC : r ≠ kC := fun h => hC (by rw [h]; exact List.mem_cons_self _ _)
      have hD' : kD ∉ pre := fun h => hD (List.mem_cons_of_mem _ h)
      have hC' : kC ∉ pre := fun h => hC (List.mem_cons_of_mem _ h)
      rw [List.cons_append, structural_rows]
      cases hri : alookup infos r with
      | none => exact ih post sd hD' hC' h1 h2
      | some rinfo =>
          dsimp only
          by_cases hd : rinfo.2 = true
          · rw [if_pos hd]
            exact ih post _ hD' hC'
              ((structural_cols_frame tt infos r rinfo.1 keys sd kD kC hrD hrC).trans h1)
              ((structural_cols_frame tt infos r rinfo.1 keys sd kC kD hrC hrD).trans h2)
          · rw [if_neg hd]
            exact ih post sd hD' hC' h1 h2

theorem structural_rows_n (tt : String) (infos : List (Key × (Path × Bool)))
    (keys : List Key) (kA kB : Key) (infoA infoB : Path × Bool)
    (hne : kA ≠ kB)
    (hinfA : alookup infos kA = some infoA)
    (hinfB : alookup infos kB = some infoB)
    (hsubAB : is_subpath infoA.1 infoB.1 = false)
    (hsubBA : is_subpath infoB.1 infoA.1 = false)
    (hdoc : tt = "doc")
    (hkA : kA ∈ keys) (hkB : kB ∈ keys) :
    ∀ rows sd,
      alookup sd (kA, kB) = none → alookup sd (kB, kA) = none →
      ((kA ∈ rows ∧ infoA.2 = true) ∨ (kB ∈ rows ∧ infoB.2 = true)) →
      alookup (structural_rows tt infos keys rows sd) (kA, kB) = some 'n' ∧
      alookup (structural_rows tt infos keys rows sd) (kB, kA) = some 'n' := by
  intro rows
  induction rows with
  | nil =>
      intro sd _ _ hwit
      rcases hwit with ⟨h, _⟩ | ⟨h, _⟩ <;> simp at h
  | cons r rows ih =>
      intro sd h1 h2 hwit
      rw [structural_rows]
      by_cases hrA : r = kA
      · subst hrA
        simp only [hinfA]
        by_cases hd : infoA.2 = true
        · rw [if_pos hd]
          have hsets := structural_cols_sets tt infos r infoA.1 kB infoB 'n'
            (fun h => hne h.symm) hinfB (by rw [hsubBA]; rfl)
            (fun _ => hdoc) keys sd hkB h1 h2
          exact ⟨structural_rows_monotone _ _ _ _ _ _ _ hsets.1,
                 structural_rows_monotone _ _ _ _ _ _ _ hsets.2⟩
        · rw [if_neg hd]
          refine ih sd h1 h2 ?_
          rcases hwit with ⟨_, hdir⟩ | ⟨hmem, hdir⟩
          · exact absurd hdir hd
          · refine Or.inr ⟨?_, hdir⟩
            rcases List.mem_cons.mp hmem with h | h
            · exact absurd h.symm hne
            · exact h
      · by_cases hrB : r = kB
        · subst hrB
          simp only [hinfB]
          by_cases hd : infoB.2 = true
          · rw [if_pos hd]
            have hsets := structural_cols_sets tt infos r infoB.1 kA infoA 'n'
              hne hinfA (by rw [hsubAB]; rfl) (fun _ => hdoc) keys sd hkA h2 h1
            exact ⟨structural_rows_monotone _ _ _ _ _ _ _ hsets.2,
                   structural_rows_monotone _ _ _ _ _ _ _ hsets.1⟩
          · rw [if_neg hd]
            refine ih sd h1 h2 ?_
            rcases hwit with ⟨hmem, hdir⟩ | ⟨_, hdir⟩
            · refine Or.inl ⟨?_, hdir⟩
              rcases List.mem_cons.mp hmem with h | h
              · exact absurd h hne
              · exact h
            · exact absurd hdir hd
        · cases hri : alookup infos r with
          | none =>
              refine ih sd h1 h2 ?_
              rcases hwit with ⟨hmem, hdir⟩ | ⟨hmem, hdir⟩
              · refine Or.inl ⟨?_, hdir⟩
                rcases List.mem_cons.mp hmem with h | h
                · exact absurd h.symm hrA
                · exact h
              · refine Or.inr ⟨?_, hdir⟩
                rcases List.mem_cons.mp hmem with h | h
                · exact absurd h.symm hrB
                · exact h
          | some rinfo =>
              dsimp only
              have hnext : ∀ sd', alookup sd' (kA, kB) = alookup sd (kA, kB) →
                  alookup sd' (kB, kA) = alookup sd (kB, kA) →
                  alookup (structural_rows tt infos keys rows sd') (kA, kB) = some 'n' ∧
                  alookup (structural_rows tt infos keys rows sd') (kB, kA) = some 'n' := by
                intro sd' e1 e2
                refine ih sd' (e1.trans h1) (e2.trans h2) ?_
                rcases hwit with ⟨hmem, hdir⟩ | ⟨hmem, hdir⟩
                · refine Or.inl ⟨?_, hdir⟩
                  rcases List.mem_cons.mp hmem with h | h
                  · exact absurd h.symm hrA
                  · exact h
                · refine Or.inr ⟨?_, hdir⟩
                  rcases List.mem_cons.mp hmem with h | h
                  · exact absurd h.symm hrB
                  · exact h
              by_cases hd : rinfo.2 = true
              · rw [if_pos hd]
                exact hnext _
                  (structural_cols_frame tt infos r rinfo.1 keys sd kA kB hrA hrB)
                  (structural_cols_frame tt infos r rinfo.1 keys sd kB kA hrB hrA)
              · rw [if_neg hd]
                exact hnext sd rfl rfl

theorem apply_structural_deps_preserves_ne (keys : List Key) (sd : SD) (g : Mat)
    (i j : Nat) (h : getCell g i j ≠ 'p') :
    getCell (apply_structural_deps keys sd g) i j = getCell g i j := by
  induction sd generalizing g with
  | nil => rfl
  | cons e rest ih =>
      obtain ⟨pair, ch⟩ := e
      rw [apply_structural_deps]
      cases hf1 : keys.findIdx? (fun k => k = pair.1) with
      | none => exact ih g h
      | some a =>
          cases hf2 : keys.findIdx? (fun k => k = pair.2) with
          | none => dsimp only; exact ih g h
          | some b =>
              dsimp only
              by_cases hg : a ≠ b ∧ getCell g a b = 'p'
              · rw [if_pos hg]
                by_cases hab : a = i ∧ b = j
                · obtain ⟨hai, hbj⟩ := hab
                  subst hai; subst hbj
                  exact absurd hg.2 h
                · have heq := getCell_setCell_other g a b i j ch
                    (fun hc => hab ⟨hc.1.symm, hc.2.symm⟩)
                  exact (ih _ (fun hp => h (heq.symm.trans hp))).trans heq
              · rw [if_neg hg]
                exact ih g h

theorem apply_structural_deps_writes (keys : List Key) (n : Nat) (kA kB : Key)
    (i j : Nat) (ch : Char)
    (hf1 : keys.findIdx? (fun k => k = kA) = some i)
    (hf2 : keys.findIdx? (fun k => k = kB) = some j)
    (hij : i ≠ j) (hch : ch ≠ 'p') (hi : i < n) (hj : j < n) :
    ∀ sd g, alookup sd (kA, kB) = some ch → WFMat g n → getCell g i j = 'p' →
      getCell (apply_structural_deps keys sd g) i j = ch := by
  intro sd
  induction sd with
  | nil => intro g h; simp [alookup] at h
  | cons e rest ih =>
      intro g hlk hwf hp
      obtain ⟨pair, c⟩ := e
      rw [apply_structural_deps]
      rw [alookup] at hlk
      by_cases hpair : (kA, kB) = pair
      · rw [if_pos hpair] at hlk
        have hc : c = ch := Option.some.inj hlk
        subst hc
        have hp1 : pair.1 = kA := by rw [← hpair]
        have hp2 : pair.2 = kB := by rw [← hpair]
        rw [hp1, hp2, hf1, hf2]
        dsimp only
        rw [if_pos ⟨hij, hp⟩]
        have hcell : getCell (setCell g i j c) i j = c :=
          getCell_setCell_self g n i j c hwf hi hj
        exact (apply_structural_deps_preserves_ne keys rest _ i j
          (fun h => hch (hcell.symm.trans h))).trans hcell
      · rw [if_neg hpair] at hlk
        cases hg1 : keys.findIdx? (fun k => k = pair.1) with
        | none => exact ih g hlk hwf hp
        | some a =>
            cases hg2 : keys.findIdx? (fun k => k = pair.2) with
            | none => dsimp only; exact ih g hlk hwf hp
            | some b =>
                dsimp only
                by_cases hguard : a ≠ b ∧ getCell g a b = 'p'
                · rw [if_pos hguard]
                  have hne : ¬(i = a ∧ j = b) := by
                    rintro ⟨hia, hjb⟩
                    subst hia; subst hjb
                    obtain ⟨hwa, hea⟩ := findIdx?_getElem_eq hg1
                    obtain ⟨hwi, hei⟩ := findIdx?_getElem_eq hf1
                    obtain ⟨hwb, heb⟩ := findIdx?_getElem_eq hg2
                    obtain ⟨hwj, hej⟩ := findIdx?_getElem_eq hf2
                    exact hpair (Prod.ext (hei.symm.trans hea) (hej.symm.trans heb))
                  exact ih _ hlk (wf_setCell g n a b c hwf)
                    ((getCell_setCell_other g a b i j c hne).trans hp)
                · rw [if_neg hguard]
                  exact ih g hlk hwf hp

theorem take_not_mem_of_findIdx {keys : List Key} {k : Key} {i m : Nat}
    (hf : keys.findIdx? (fun x => x = k) = some i) (him : m ≤ i) :
    k ∉ keys.take m := by
  obtain ⟨hilen, hpi, hprev⟩ := List.findIdx?_eq_some_iff_getElem.mp hf
  intro hmem
  obtain ⟨a, halt, haeq⟩ := List.mem_iff_getElem.mp hmem
  have halt' : a < m := by rw [List.length_take] at halt; omega
  exact absurd (decide_eq_true ((List.getElem_take keys).symm.trans haeq))
    (hprev a (lt_of_lt_of_le halt' him))

/-- C6: structural rules for doc and mini trackers, as the code implements
them. (iii) structural rules never overwrite a non-placeholder cell; (i) a
directory row whose key precedes a descendant key in the final key list sets
both directions of the pair to `x` when both cells are still `p`; (ii) for doc
trackers, a pair with no ancestor relation in either direction and AT LEAST
ONE DIRECTORY endpoint gets `n` in both directions when both cells are still
`p`. The claim's stronger reading — that ANY two doc keys get `n` — fails: the
rules only fire from directory rows (see the counterexample). -/
theorem structural_rules_characterization
    (tt : String) (infos : List (Key × (Path × Bool))) (keys : List Key)
    (g : Mat) (n : Nat) (hwf : WFMat g n) :
    (∀ i j, getCell g i j ≠ 'p' →
      getCell (apply_structural_deps keys (compute_structural_deps tt infos keys) g) i j =
        getCell g i j)
    ∧
    (∀ kD kC i j pathD cinfo,
      keys.findIdx? (fun k => k = kD) = some i →
      keys.findIdx? (fun k => k = kC) = some j →
      i < j → j < n →
      alookup infos kD = some (pathD, true) →
      alookup infos kC = some cinfo →
      is_subpath cinfo.1 pathD = true →
      getCell g i j = 'p' → getCell g j i = 'p' →
      getCell (apply_structural_deps keys (compute_structural_deps tt infos keys) g) i j = 'x' ∧
      getCell (apply_structural_deps keys (compute_structural_deps tt infos keys) g) j i = 'x')
    ∧
    (tt = "doc" →
      ∀ kA kB i j infoA infoB,
      keys.findIdx? (fun k => k = kA) = some i →
      keys.findIdx? (fun k => k = kB) = some j →
      i ≠ j → i < n → j < n →
      alookup infos kA = some infoA →
      alookup infos kB = some infoB →
      is_subpath infoA.1 infoB.1 = false →
      is_subpath infoB.1 infoA.1 = false →
      (infoA.2 = true ∨ infoB.2 = true) →
      getCell g i j = 'p' → getCell g j i = 'p' →
      getCell (apply_structural_deps keys (compute_structural_deps tt infos keys) g) i j = 'n' ∧
      getCell (apply_structural_deps keys (compute_structural_deps tt infos keys) g) j i = 'n') := by
  refine ⟨fun i j h => apply_structural_deps_preserves_ne keys _ g i j h, ?_, ?_⟩
  · intro kD kC i j pathD cinfo hf1 hf2 hij hjn hinfD hinfC hsub hpij hpji
    obtain ⟨hilen, hpi, hprevI⟩ := List.findIdx?_eq_some_iff_getElem.mp hf1
    obtain ⟨hjlen, hpj, hprevJ⟩ := List.findIdx?_eq_some_iff_getElem.mp hf2
    have hkD : keys[i] = kD := of_decide_eq_true hpi
    have hkC : keys[j] = kC := of_decide_eq_true hpj
    have hkCmem : kC ∈ keys := hkC ▸ List.getElem_mem hjlen
    have hne : kD ≠ kC := by
      intro h
      exact absurd (decide_eq_true (h ▸ hkD)) (hprevJ i hij)
    have hsplit : keys = keys.take i ++ kD :: keys.drop (i + 1) := by
      conv_lhs => rw [← List.take_append_drop i keys]
      rw [List.drop_eq_getElem_cons hilen, hkD]
    have hx := structural_rows_x tt infos keys kD kC pathD cinfo hne hinfD hinfC hsub hkCmem
      (keys.take i) (keys.drop (i + 1)) []
      (take_not_mem_of_findIdx hf1 (le_refl i))
      (take_not_mem_of_findIdx hf2 (le_of_lt hij)) rfl rfl
    rw [← hsplit] at hx
    have hx1 : alookup (compute_structural_deps tt infos keys) (kD, kC) = some 'x' := hx.1
    have hx2 : alookup (compute_structural_deps tt infos keys) (kC, kD) = some 'x' := hx.2
    exact ⟨apply_structural_deps_writes keys n kD kC i j 'x' hf1 hf2
        (Nat.ne_of_lt hij) (by decide) (lt_trans hij hjn) hjn _ g hx1 hwf hpij,
      apply_structural_deps_writes keys n kC kD j i 'x' hf2 hf1
        (Nat.ne_of_lt hij).symm (by decide) hjn (lt_trans hij hjn) _ g hx2 hwf hpji⟩
  · intro hdoc kA kB i j infoA infoB hf1 hf2 hij hin hjn hinfA hinfB hsAB hsBA hdir hpij hpji
    obtain ⟨hilen, hpi, -⟩ := List.findIdx?_eq_some_iff_getElem.mp hf1
    obtain ⟨hjlen, hpj, -⟩ := List.findIdx?_eq_some_iff_getElem.mp hf2
    have hkA : keys[i] = kA := of_decide_eq_true hpi
    have hkB : keys[j] = kB := of_decide_eq_true hpj
    have hkAmem : kA ∈ keys := hkA ▸ List.getElem_mem hilen
    have hkBmem : kB ∈ keys := hkB ▸ List.getElem_mem hjlen
    have hne : kA ≠ kB := by
      intro h
      rw [h] at hf1
      rw [hf1] at hf2
      exact hij (Option.some.inj hf2)
    have hn := structural_rows_n tt infos keys kA kB infoA infoB hne hinfA hinfB
      hsAB hsBA hdoc hkAmem hkBmem keys [] rfl rfl
      (hdir.elim (fun h => Or.inl ⟨hkAmem, h⟩) (fun h => Or.inr ⟨hkBmem, h⟩))
    have hn1 : alookup (compute_structural_deps tt infos keys) (kA, kB) = some 'n' := hn.1
    have hn2 : alookup (compute_structural_deps tt infos keys) (kB, kA) = some 'n' := hn.2
    exact ⟨apply_structural_deps_writes keys n kA kB i j 'n' hf1 hf2
        hij (by decide) hin hjn _ g hn1 hwf hpij,
      apply_structural_deps_writes keys n kB kA j i 'n' hf2 hf1
        (Ne.symm hij) (by decide) hjn hin _ g hn2 hwf hpji⟩

/-- C6 counterexample: in a doc tracker holding only two FILE keys with
unrelated paths, the structural step leaves the pair at `p` — it does not set
it to `n`, because the n-rule only fires from directory rows. This refutes the
claim that any two doc keys not in an ancestor relationship both become `n`. -/
theorem structural_doc_n_counterexample :
    getCell (apply_structural_deps ["1A1", "1A2"]
      (compute_structural_deps "doc"
        [("1A1", ("docs/a.md", false)), ("1A2", ("docs/b.md", false))]
        ["1A1", "1A2"])
      (create_initial_matrix 2)) 0 1 = 'p' ∧
    is_subpath "docs/a.md" "docs/b.md" = false ∧
    is_subpath "docs/b.md" "docs/a.md" = false ∧
    ('p' : Char) ≠ 'n' := by
  refine ⟨?_, by decide, by decide, by decide⟩
  rfl

theorem structural_rules_characterization_witness :
    (getCell (apply_structural_deps ["1A", "1A1", "1B"]
      (compute_structural_deps "doc"
        [("1A", ("docs/a", true)), ("1A1", ("docs/a/x.md", false)), ("1B", ("docs/b", true))]
        ["1A", "1A1", "1B"])
      (create_initial_matrix 3)) 0 1 = 'x' ∧
     getCell (apply_structural_deps ["1A", "1A1", "1B"]
      (compute_structural_deps "doc"
        [("1A", ("docs/a", true)), ("1A1", ("docs/a/x.md", false)), ("1B", ("docs/b", true))]
        ["1A", "1A1", "1B"])
      (create_initial_matrix 3)) 1 0 = 'x') ∧
    (getCell (apply_structural_deps ["1A", "1A1", "1B"]
      (compute_structural_deps "doc"
        [("1A", ("docs/a", true)), ("1A1", ("docs/a/x.md", false)), ("1B", ("docs/b", true))]
        ["1A", "1A1", "1B"])
      (create_initial_matrix 3)) 0 2 = 'n' ∧
     getCell (apply_structural_deps ["1A", "1A1", "1B"]
      (compute_structural_deps "doc"
        [("1A", ("docs/a", true)), ("1A1", ("docs/a/x.md", false)), ("1B", ("docs/b", true))]
        ["1A", "1A1", "1B"])
      (create_initial_matrix 3)) 2 0 = 'n') ∧
    getCell (apply_structural_deps ["1A", "1A1", "1B"]
      (compute_structural_deps "doc"
        [("1A", ("docs/a", true)), ("1A1", ("docs/a/x.md", false)), ("1B", ("docs/b", true))]
        ["1A", "1A1", "1B"])
      (create_initial_matrix 3)) 0 0 = getCell (create_initial_matrix 3) 0 0 := by
  have h := structural_rules_characterization "doc"
    [("1A", ("docs/a", true)), ("1A1", ("docs/a/x.md", false)), ("1B", ("docs/b", true))]
    ["1A", "1A1", "1B"] (create_initial_matrix 3) 3 (wf_create_initial_matrix 3)
  refine ⟨?_, ?_, ?_⟩
  · exact h.2.1 "1A" "1A1" 0 1 "docs/a" ("docs/a/x.md", false)
      (by decide) (by decide) (by decide) (by decide) rfl rfl (by decide)
      (by decide) (by decide)
  · exact h.2.2 rfl "1A" "1B" 0 2 ("docs/a", true) ("docs/b", true)
      (by decide) (by decide) (by decide) (by decide) (by decide) rfl rfl
      (by decide) (by decide) (Or.inl rfl) (by decide) (by decide)
  · exact h.1 0 0 (by decide)

/-! ### Dependency aggregation (claim C3).

Embedded from `tracker_utils.aggregate_all_dependencies` (lines 121-253). A
tracker file contributes its keys section (stale key -> path) and its grid
(row key -> compressed row); the set of tracker paths is modelled as a list
in iteration order, and `path_migration_info` as an association list
path -> (old key, new key). The Python dict of aggregated links is an
association list keyed by the (source, target) current-key pair. -/

/-- Modelled from the spec: `DIAGONAL_CHAR` is `o` and `EMPTY_CHAR` is the
legacy `P` (`core/dependency_grid.py` is absent from src/); the aggregator
skips cells holding either (line 201). -/
def skipped_agg_char (c : Char) : Bool :=
  c = 'o' || c = 'P'

structure TrackerData where
  path : Path
  keys : List (Key × Path)
  grid : List (Key × List Char)

abbrev PMI := List (Path × (Option Key × Option Key))

abbrev AggMap := List ((Key × Key) × (Char × List Path))

/-- Embedded from lines 150-158: the helper map old key -> stable path,
first-wins on duplicate old keys, built in `path_migration_info` order. -/
def old_key_to_stable_path : PMI → List (Key × Path) → List (Key × Path)
  | [], acc => acc
  | (path, mig) :: rest, acc =>
      old_key_to_stable_path rest
        (match mig.1 with
         | none => acc
         | some ok => if (alookup acc ok).isSome then acc else acc ++ [(ok, path)])

/-- Python `set.add`, modelled on lists up to membership. -/
def insertOrigin (origins : List Path) (tp : Path) : List Path :=
  if tp ∈ origins then origins else origins ++ [tp]

/-- Embedded from lines 222-241: update the aggregated map at one link. -/
def agg_update (agg : AggMap) (link : Key × Key) (dep_char : Char) (tp : Path) : AggMap :=
  match alookup agg link with
  | none => aset agg link (dep_char, [tp])
  | some ex =>
      if getCharPriority dep_char > getCharPriority ex.1 then
        aset agg link (dep_char, [tp])
      else if getCharPriority dep_char = getCharPriority ex.1 then
        if dep_char = ex.1 then aset agg link (ex.1, insertOrigin ex.2 tp)
        else aset agg link (dep_char, [tp])
      else agg

/-- Embedded from lines 199-230: the filters a cell must pass before it
updates the map, and the link it then addresses. `none` means the cell is
skipped: diagonal or legacy-empty char, column index out of range, row key
equal to column key, unstable or removed column endpoint, or a character the
priority table does not know (the `KeyError` handler at line 228). -/
def cell_link (okts : List (Key × Path)) (pmi : PMI) (old_keys_list : List Key)
    (old_row_key current_row_key : Key) (idx : Nat) (dep_char : Char) :
    Option (Key × Key) :=
  if skipped_agg_char dep_char then none
  else match old_keys_list.get? idx with
    | none => none
    | some old_col_key =>
        if old_row_key = old_col_key then none
        else match alookup okts old_col_key with
          | none => none
          | some col_path =>
              match alookup pmi col_path with
              | none => none
              | some mig =>
                  match mig.2 with
                  | none => none
                  | some current_col_key =>
                      if knownChar dep_char then some (current_row_key, current_col_key)
                      else none

def process_cells (okts : List (Key × Path)) (pmi : PMI) (old_keys_list : List Key)
    (old_row_key current_row_key : Key) (tp : Path) :
    List (Nat × Char) → AggMap → AggMap
  | [], agg => agg
  | (idx, ch) :: rest, agg =>
      process_cells okts pmi old_keys_list old_row_key current_row_key tp rest
        (match cell_link okts pmi old_keys_list old_row_key current_row_key idx ch with
         | none => agg
         | some link => agg_update agg link ch tp)

/-- Embedded from lines 176-243: one grid row — row-key stability checks,
decompression, row-length check, then the cell loop. -/
def process_row (okts : List (Key × Path)) (pmi : PMI) (old_keys_list : List Key)
    (tp : Path) (agg : AggMap) (row : Key × List Char) : AggMap :=
  match alookup okts row.1 with
  | none => agg
  | some row_path =>
      match alookup pmi row_path with
      | none => agg
      | some mig =>
          match mig.2 with
          | none => agg
          | some current_row_key =>
              if (decompress row.2).length = old_keys_list.length then
                process_cells okts pmi old_keys_list row.1 current_row_key tp
                  (decompress row.2).enum agg
              else agg

def process_rows (okts : List (Key × Path)) (pmi : PMI) (old_keys_list : List Key)
    (tp : Path) : List (Key × List Char) → AggMap → AggMap
  | [], agg => agg
  | row :: rest, agg =>
      process_rows okts pmi old_keys_list tp rest
        (process_row okts pmi old_keys_list tp agg row)

/-- Embedded from lines 161-250: one tracker — empty-keys/grid skip, the
hierarchically sorted stale key list, then the row loop. -/
def process_tracker (pmi : PMI) (okts : List (Key × Path)) (agg : AggMap)
    (td : TrackerData) : AggMap :=
  if td.grid = [] ∨ td.keys = [] then agg
  else process_rows okts pmi
    (sort_key_strings_hierarchically (td.keys.map Prod.fst)) td.path td.grid agg

def aggregate_go (pmi : PMI) (okts : List (Key × Path)) :
    List TrackerData → AggMap → AggMap
  | [], agg => agg
  | td :: rest, agg => aggregate_go pmi okts rest (process_tracker pmi okts agg td)

def aggregate_all_dependencies (trackers : List TrackerData) (pmi : PMI) : AggMap :=
  aggregate_go pmi (old_key_to_stable_path pmi []) trackers []

/-- Spec-side (claim C3, spec 4.7): the per-link update rule in the spec's
words — insert `(c, {tracker})` when absent; replace on strictly higher
priority; add the tracker to the origin set on an equal identical character;
replace and reset origins on an equal different character; ignore lower
priority. -/
def spec_update (acc : Option (Char × List Path)) (o : Char × Path) :
    Option (Char × List Path) :=
  match acc with
  | none => some (o.1, [o.2])
  | some (ec, org) =>
      if getCharPriority o.1 > getCharPriority ec then some (o.1, [o.2])
      else if getCharPriority o.1 = getCharPriority ec then
        if o.1 = ec then some (ec, insertOrigin org o.2)
        else some (o.1, [o.2])
      else some (ec, org)

/-- Spec-side: the observations a link receives from one row's cells, in
processing order — each surviving cell that addresses `link` contributes its
character together with the tracker it came from. -/
def obs_cells (okts : List (Key × Path)) (pmi : PMI) (old_keys_list : List Key)
    (old_row_key current_row_key : Key) (tp : Path) (link : Key × Key) :
    List (Nat × Char) → List (Char × Path)
  | [] => []
  | (idx, ch) :: rest =>
      (if cell_link okts pmi old_keys_list old_row_key current_row_key idx ch =
          some link then [(ch, tp)] else []) ++
      obs_cells okts pmi old_keys_list old_row_key current_row_key tp link rest

def obs_row (okts : List (Key × Path)) (pmi : PMI) (old_keys_list : List Key)
    (tp : Path) (link : Key × Key) (row : Key × List Char) : List (Char × Path) :=
  match alookup okts row.1 with
  | none => []
  | some row_path =>
      match alookup pmi row_path with
      | none => []
      | some mig =>
          match mig.2 with
          | none => []
          | some current_row_key =>
              if (decompress row.2).length = old_keys_list.length then
                obs_cells okts pmi old_keys_list row.1 current_row_key tp link
                  (decompress row.2).enum
              else []

def obs_rows (okts : List (Key × Path)) (pmi : PMI) (old_keys_list : List Key)
    (tp : Path) (link : Key × Key) : List (Key × List Char) → List (Char × Path)
  | [] => []
  | row :: rest =>
      obs_row okts pmi old_keys_list tp link row ++
      obs_rows okts pmi old_keys_list tp link rest

def obs_tracker (pmi : PMI) (okts : List (Key × Path)) (link : Key × Key)
    (td : TrackerData) : List (Char × Path) :=
  if td.grid = [] ∨ td.keys = [] then []
  else obs_rows okts pmi
    (sort_key_strings_hierarchically (td.keys.map Prod.fst)) td.path link td.grid

def obs_go (pmi : PMI) (okts : List (Key × Path)) (link : Key × Key) :
    List TrackerData → List (Char × Path)
  | [] => []
  | td :: rest => obs_tracker pmi okts link td ++ obs_go pmi okts link rest

/-- Spec-side: every observation the link receives across all trackers, in
processing order. -/
def spec_observations (trackers : List TrackerData) (pmi : PMI)
    (link : Key × Key) : List (Char × Path) :=
  obs_go pmi (old_key_to_stable_path pmi []) link trackers

theorem agg_update_lookup_self (agg : AggMap) (link : Key × Key) (c : Char) (tp : Path) :
    alookup (agg_update agg link c tp) link = spec_update (alookup agg link) (c, tp) := by
  rw [agg_update]
  cases h : alookup agg link with
  | none => rw [spec_update]; exact alookup_aset_self agg link (c, [tp])
  | some ex =>
      obtain ⟨ec, org⟩ := ex
      rw [spec_update]
      dsimp only
      by_cases h1 : getCharPriority c > getCharPriority ec
      · rw [if_pos h1, if_pos h1]
        exact alookup_aset_self agg link (c, [tp])
      · rw [if_neg h1, if_neg h1]
        by_cases h2 : getCharPriority c = getCharPriority ec
        · rw [if_pos h2, if_pos h2]
          by_cases h3 : c = ec
          · rw [if_pos h3, if_pos h3]
            exact alookup_aset_self agg link (ec, insertOrigin org tp)
          · rw [if_neg h3, if_neg h3]
            exact alookup_aset_self agg link (c, [tp])
        · rw [if_neg h2, if_neg h2]
          exact h

theorem agg_update_lookup_other (agg : AggMap) (link' link : Key × Key)
    (c : Char) (tp : Path) (h : link ≠ link') :
    alookup (agg_update agg link' c tp) link = alookup agg link := by
  rw [agg_update]
  cases halk : alookup agg link' with
  | none => exact alookup_aset_other agg link' link (c, [tp]) h
  | some ex =>
      obtain ⟨ec, org⟩ := ex
      dsimp only
      by_cases h1 : getCharPriority c > getCharPriority ec
      · rw [if_pos h1]; exact alookup_aset_other agg link' link (c, [tp]) h
      · rw [if_neg h1]
        by_cases h2 : getCharPriority c = getCharPriority ec
        · rw [if_pos h2]
          by_cases h3 : c = ec
          · rw [if_pos h3]
            exact alookup_aset_other agg link' link (ec, insertOrigin org tp) h
          · rw [if_neg h3]
            exact alookup_aset_other agg link' link (c, [tp]) h
        · rw [if_neg h2]

theorem process_cells_lookup (okts : List (Key × Path)) (pmi : PMI)
    (old_keys_list : List Key) (old_row_key current_row_key : Key) (tp : Path)
    (link : Key × Key) :
    ∀ cells agg,
      alookup (process_cells okts pmi old_keys_list old_row_key current_row_key tp
        cells agg) link =
      (obs_cells okts pmi old_keys_list old_row_key current_row_key tp link
        cells).foldl spec_update (alookup agg link) := by
  intro cells
  induction cells with
  | nil => intro agg; rfl
  | cons cell rest ih =>
      intro agg
      obtain ⟨idx, ch⟩ := cell
      rw [process_cells, obs_cells]
      cases hcl : cell_link okts pmi old_keys_list old_row_key current_row_key idx ch with
      | none =>
          rw [if_neg (fun h => Option.noConfusion h)]
          rw [List.nil_append]
          exact ih agg
      | some l =>
          by_cases hl : l = link
          · subst hl
            rw [if_pos rfl]
            rw [List.cons_append, List.nil_append, List.foldl_cons]
            rw [ih _]
            rw [agg_update_lookup_self]
          · rw [if_neg (fun h => hl (Option.some.inj h))]
            rw [List.nil_append, ih _]
            rw [agg_update_lookup_other agg l link ch tp (fun h => hl h.symm)]

theorem process_row_lookup (okts : List (Key × Path)) (pmi : PMI)
    (old_keys_list : List Key) (tp : Path) (link : Key × Key)
    (agg : AggMap) (row : Key × List Char) :
    alookup (process_row okts pmi old_keys_list tp agg row) link =
      (obs_row okts pmi old_keys_list tp link row).foldl spec_update
        (alookup agg link) := by
  rw [process_row, obs_row]
  cases h1 : alookup okts row.1 with
  | none => rfl
  | some row_path =>
      dsimp only
      cases h2 : alookup pmi row_path with
      | none => rfl
      | some mig =>
          dsimp only
          cases h3 : mig.2 with
          | none => rfl
          | some current_row_key =>
              dsimp only
              by_cases h4 : (decompress row.2).length = old_keys_list.length
              · rw [if_pos h4, if_pos h4]
                exact process_cells_lookup okts pmi old_keys_list row.1
                  current_row_key tp link _ agg
              · rw [if_neg h4, if_neg h4]; rfl

theorem process_rows_lookup (okts : List (Key × Path)) (pmi : PMI)
    (old_keys_list : List Key) (tp : Path) (link : Key × Key) :
    ∀ rows agg,
      alookup (process_rows okts pmi old_keys_list tp rows agg) link =
        (obs_rows okts pmi old_keys_list tp link rows).foldl spec_update
          (alookup agg link) := by
  intro rows
  induction rows with
  | nil => intro agg; rfl
  | cons row rest ih =>
      intro agg
      rw [process_rows, obs_rows, List.foldl_append, ih _, process_row_lookup]

theorem process_tracker_lookup (pmi : PMI) (okts : List (Key × Path))
    (agg : AggMap) (td : TrackerData) (link : Key × Key) :
    alookup (process_tracker pmi okts agg td) link =
      (obs_tracker pmi okts link td).foldl spec_update (alookup agg link) := by
  rw [process_tracker, obs_tracker]
  by_cases h : td.grid = [] ∨ td.keys = []
  · rw [if_pos h, if_pos h]; rfl
  · rw [if_neg h, if_neg h]
    exact process_rows_lookup okts pmi _ td.path link td.grid agg

theorem aggregate_go_lookup (pmi : PMI) (okts : List (Key × Path)) (link : Key × Key) :
    ∀ trackers agg,
      alookup (aggregate_go pmi okts trackers agg) link =
        (obs_go pmi okts link trackers).foldl spec_update (alookup agg link) := by
  intro trackers
  induction trackers with
  | nil => intro agg; rfl
  | cons td rest ih =>
      intro agg
      rw [aggregate_go, obs_go, List.foldl_append, ih _, process_tracker_lookup]

theorem spec_update_cases (acc : Option (Char × List Path)) (o : Char × Path) :
    ∃ c2 org2, spec_update acc o = some (c2, org2) ∧
      (c2 = o.1 ∨ ∃ org0, acc = some (c2, org0)) ∧
      getCharPriority o.1 ≤ getCharPriority c2 ∧
      (∀ c0 org0, acc = some (c0, org0) →
        getCharPriority c0 ≤ getCharPriority c2) := by
  cases acc with
  | none =>
      exact ⟨o.1, [o.2], rfl, Or.inl rfl, le_refl _,
        fun c0 org0 h => Option.noConfusion h⟩
  | some ex =>
      obtain ⟨ec, org⟩ := ex
      rw [spec_update]
      by_cases h1 : getCharPriority o.1 > getCharPriority ec
      · rw [if_pos h1]
        exact ⟨o.1, [o.2], rfl, Or.inl rfl, le_refl _,
          fun c0 org0 h => by
            obtain ⟨h1', h2'⟩ := Prod.mk.injEq .. ▸ Option.some.inj h
            rw [← h1']; exact le_of_lt h1⟩
      · rw [if_neg h1]
        by_cases h2 : getCharPriority o.1 = getCharPriority ec
        · rw [if_pos h2]
          by_cases h3 : o.1 = ec
          · rw [if_pos h3]
            exact ⟨ec, insertOrigin org o.2, rfl, Or.inl h3.symm, le_of_eq (h3 ▸ h2),
              fun c0 org0 h => by
                obtain ⟨h1', h2'⟩ := Prod.mk.injEq .. ▸ Option.some.inj h
                rw [← h1']⟩
          · rw [if_neg h3]
            exact ⟨o.1, [o.2], rfl, Or.inl rfl, le_refl _,
              fun c0 org0 h => by
                obtain ⟨h1', h2'⟩ := Prod.mk.injEq .. ▸ Option.some.inj h
                rw [← h1']; exact le_of_eq h2.symm⟩
        · rw [if_neg h2]
          exact ⟨ec, org, rfl, Or.inr ⟨org, rfl⟩, Nat.le_of_not_lt h1,
            fun c0 org0 h => by
              obtain ⟨h1', h2'⟩ := Prod.mk.injEq .. ▸ Option.some.inj h
              rw [← h1']⟩

theorem spec_fold_max :
    ∀ (obs : List (Char × Path)) (acc : Option (Char × List Path))
      (c : Char) (org : List Path),
      obs.foldl spec_update acc = some (c, org) →
      ((∃ tp, (c, tp) ∈ obs) ∨ ∃ org0, acc = some (c, org0)) ∧
      (∀ e ∈ obs, getCharPriority e.1 ≤ getCharPriority c) ∧
      (∀ c0 org0, acc = some (c0, org0) →
        getCharPriority c0 ≤ getCharPriority c) := by
  intro obs
  induction obs with
  | nil =>
      intro acc c org h
      rw [List.foldl_nil] at h
      refine ⟨Or.inr ⟨org, h⟩, fun e he => absurd he (List.not_mem_nil e), ?_⟩
      intro c0 org0 h0
      rw [h0] at h
      obtain ⟨h1', h2'⟩ := Prod.mk.injEq .. ▸ Option.some.inj h
      rw [h1']
  | cons o rest ih =>
      intro acc c org h
      rw [List.foldl_cons] at h
      obtain ⟨c2, org2, he, hsrc, hle, hacc⟩ := spec_update_cases acc o
      obtain ⟨hsrc', hle', hacc'⟩ := ih (spec_update acc o) c org h
      have hc2 : getCharPriority c2 ≤ getCharPriority c := hacc' c2 org2 he
      refine ⟨?_, ?_, ?_⟩
      · rcases hsrc' with ⟨tp, htp⟩ | ⟨org0, hacc0⟩
        · exact Or.inl ⟨tp, List.mem_cons_of_mem o htp⟩
        · have hc2c : c2 = c := by
            rw [he] at hacc0
            exact (Prod.mk.injEq .. ▸ Option.some.inj hacc0).1
          rcases hsrc with h' | ⟨org0', h'⟩
          · refine Or.inl ⟨o.2, ?_⟩
            have : (c, o.2) = o := by
              rw [← hc2c, h']
            rw [this]
            exact List.mem_cons_self o rest
          · exact Or.inr ⟨org0', hc2c ▸ h'⟩
      · intro e he'
        rcases List.mem_cons.mp he' with h' | h'
        · rw [h']
          exact le_trans hle hc2
        · exact hle' e h'
      · intro c0 org0 h0
        exact le_trans (hacc c0 org0 h0) hc2

/-- C3: characterization of `aggregate_all_dependencies`. The entry the
aggregator produces for a link equals the spec's per-link fold over the
observation sequence of that link — every cell that survives the filters
(diagonal `o` and legacy-empty `P` skipped, both endpoints mapped to stable
current keys, known character), in tracker/row/cell processing order.
Consequently a produced character is one that was actually observed and has
the highest observed priority; at equal priority a different character
replaces the entry and resets the origin set to the new tracker, while an
identical character only adds its tracker to the origin set. -/
theorem aggregate_characterization (trackers : List TrackerData) (pmi : PMI)
    (link : Key × Key) :
    (alookup (aggregate_all_dependencies trackers pmi) link =
      (spec_observations trackers pmi link).foldl spec_update none)
    ∧ (∀ c org,
        alookup (aggregate_all_dependencies trackers pmi) link = some (c, org) →
        (∃ tp, (c, tp) ∈ spec_observations trackers pmi link) ∧
        ∀ e ∈ spec_observations trackers pmi link,
          getCharPriority e.1 ≤ getCharPriority c)
    ∧ (∀ ec org c tp, getCharPriority c = getCharPriority ec → c ≠ ec →
        spec_update (some (ec, org)) (c, tp) = some (c, [tp]))
    ∧ (∀ ec org tp,
        spec_update (some (ec, org)) (ec, tp) = some (ec, insertOrigin org tp)) := by
  have hmain : alookup (aggregate_all_dependencies trackers pmi) link =
      (spec_observations trackers pmi link).foldl spec_update none := by
    rw [aggregate_all_dependencies, spec_observations]
    exact aggregate_go_lookup pmi (old_key_to_stable_path pmi []) link trackers []
  refine ⟨hmain, ?_, ?_, ?_⟩
  · intro c org h
    rw [hmain] at h
    obtain ⟨hsrc, hle, -⟩ := spec_fold_max (spec_observations trackers pmi link)
      none c org h
    refine ⟨?_, hle⟩
    rcases hsrc with h' | ⟨org0, h'⟩
    · exact h'
    · exact Option.noConfusion h'
  · intro ec org c tp hpe hne
    rw [spec_update]
    dsimp only
    rw [if_neg (by rw [hpe]; exact lt_irrefl _), if_pos hpe, if_neg hne]
  · intro ec org tp
    rw [spec_update]
    dsimp only
    rw [if_neg (lt_irrefl _), if_pos rfl, if_pos rfl]

theorem aggregate_characterization_witness :
    alookup (aggregate_all_dependencies
      [⟨"t1", [("1A1", "a.py"), ("1A2", "b.py")],
        [("1A1", ['o', '<']), ("1A2", ['>', 'o'])]⟩,
       ⟨"t2", [("1A1", "a.py"), ("1A2", "b.py")],
        [("1A1", ['o', 's'])]⟩]
      [("a.py", (some "1A1", some "1A1")), ("b.py", (some "1A2", some "1A2"))])
      ("1A1", "1A2") =
      (spec_observations
        [⟨"t1", [("1A1", "a.py"), ("1A2", "b.py")],
          [("1A1", ['o', '<']), ("1A2", ['>', 'o'])]⟩,
         ⟨"t2", [("1A1", "a.py"), ("1A2", "b.py")],
          [("1A1", ['o', 's'])]⟩]
        [("a.py", (some "1A1", some "1A1")), ("b.py", (some "1A2", some "1A2"))]
        ("1A1", "1A2")).foldl spec_update none ∧
    alookup (aggregate_all_dependencies
      [⟨"t1", [("1A1", "a.py"), ("1A2", "b.py")],
        [("1A1", ['o', '<']), ("1A2", ['>', 'o'])]⟩,
       ⟨"t2", [("1A1", "a.py"), ("1A2", "b.py")],
        [("1A1", ['o', 's'])]⟩]
      [("a.py", (some "1A1", some "1A1")), ("b.py", (some "1A2", some "1A2"))])
      ("1A1", "1A2") = some ('<', ["t1"]) := by
  refine ⟨(aggregate_characterization _ _ _).1, ?_⟩
  decide
